import Mathlib

/-!
Shallow embedding of the wave-function-collapse core of this repository
(`src/image_data.rs`, `src/wfc.rs`).

Modelling conventions:
* `u32` pixels and `usize` tile ids become `Nat`; `isize` coordinates become `Int`.
* Rust `Vec` becomes `List`; an out-of-bounds read (which panics in Rust) is
  modelled with `List.getD` and a default value, and an out-of-bounds
  `Vec` write is a no-op of `List.set`.
* The `BinaryHeap<TileIndex>` entropy queue is modelled as a `List Nat` of the
  stored cell indices.  The `f32` Shannon-entropy key that the source stores
  alongside each index (and that determines the heap's pop order) is floating
  point and is not modelled; pushes append the index and the pop used by
  `step` takes the head of the list.  No settled claim depends on the numeric
  ordering of the heap.
* `rand::thread_rng()` draws are modelled by explicit `Nat` arguments
  (`rand_value`, `r`); the source draws them from a thread-local generator.
* The `while !stack.is_empty()` loop of `propagate` is modelled with explicit
  fuel; `none` means the fuel ran out.
-/

/-- From `src/image_data.rs`: `wrap_value(v: isize, max: usize) -> usize`. -/
def wrap_value (v : Int) (max : Nat) : Nat :=
  if v < 0 then max - ((-v).toNat % max) else v.toNat % max

/-- From `src/image_data.rs`: `ImageData` (pixels row-major, 32-bit packed colors). -/
structure ImageData where
  pixels : List Nat
  width : Nat
  height : Nat
  deriving Repr, DecidableEq

/-- From `src/image_data.rs`: `get_pixel_wrap` (toroidal pixel access). -/
def ImageData.get_pixel_wrap (data : ImageData) (x y : Int) : Nat :=
  data.pixels.getD (wrap_value x data.width + wrap_value y data.height * data.width) 0

/-- From `src/wfc.rs`: `OFFSETS: [(isize, isize); 4]`. -/
def OFFSETS : List (Int × Int) := [(0, 1), (1, 0), (0, -1), (-1, 0)]

/-- From `src/wfc.rs`: `sample_square` builds the `tile_sz × tile_sz` tile whose
entry at flat index `ind = (x - tile_x) + (y - tile_y) * tile_sz` is the wrapped
pixel at `(x, y)`; written here as a map over flat indices. -/
def sample_square (data : ImageData) (tile_sz : Nat) (tile_x tile_y : Int) : List Nat :=
  (List.range (tile_sz * tile_sz)).map (fun ind =>
    data.get_pixel_wrap (tile_x + (ind % tile_sz : Nat)) (tile_y + (ind / tile_sz : Nat)))

/-- From `src/wfc.rs`: `tiles_match` — overlap comparison of two tiles under the
shadowed offsets `offset_x = x - offset_x`, `offset_y = y - offset_y`; positions
outside the overlap are skipped. -/
def tiles_match (tile1 tile2 : List Nat) (offset_x offset_y : Int) (tile_sz : Nat) : Bool :=
  (List.range tile_sz).all (fun y => (List.range tile_sz).all (fun x =>
    let ox : Int := (x : Int) - offset_x
    let oy : Int := (y : Int) - offset_y
    if ox < 0 ∨ oy < 0 ∨ (tile_sz : Int) ≤ ox ∨ (tile_sz : Int) ≤ oy then true
    else tile1.getD (y * tile_sz + x) 0 == tile2.getD (oy.toNat * tile_sz + ox.toNat) 0))

/-- From `src/wfc.rs`: `RuleTable` — flat boolean cube `tile_count × 4 × tile_count`. -/
structure RuleTable where
  rules : List Bool
  tile_count : Nat
  deriving Repr, DecidableEq

/-- `RuleTable::new(count)`. -/
def RuleTable.new (count : Nat) : RuleTable :=
  { rules := List.replicate (count * count * OFFSETS.length) false, tile_count := count }

/-- `RuleTable::add_rule`. -/
def RuleTable.add_rule (r : RuleTable) (direction id1 id2 : Nat) : RuleTable :=
  { r with rules :=
      r.rules.set (id1 * r.tile_count * OFFSETS.length + direction * r.tile_count + id2) true }

/-- `RuleTable::okay`. -/
def RuleTable.okay (r : RuleTable) (direction id1 id2 : Nat) : Bool :=
  r.rules.getD (id1 * r.tile_count * OFFSETS.length + direction * r.tile_count + id2) false

/-- The learning scan order of `WFCParameters::from_image_data`:
`for y in 0..height { for x in 0..width { .. } }`. -/
def scan_positions (w h : Nat) : List (Nat × Nat) :=
  (List.range h).flatMap (fun y => (List.range w).map (fun x => (x, y)))

/-- One iteration of the learning scan of `from_image_data`: look the sampled
tile up (the `HashMap<Tile, usize>` maps each tile to its position in `tiles`,
modelled by `List.indexOf?`), bump its frequency on repeat, or append the tile
with frequency 1 on first sight. -/
def learn_step (data : ImageData) (tile_sz : Nat)
    (acc : List (List Nat) × List Nat) (p : Nat × Nat) : List (List Nat) × List Nat :=
  let tile := sample_square data tile_sz (p.1 : Int) (p.2 : Int)
  match acc.1.indexOf? tile with
  | some i => (acc.1, acc.2.set i (acc.2.getD i 0 + 1))
  | none => (acc.1 ++ [tile], acc.2 ++ [1])

/-- The deduplicated tile list and parallel frequency list learned by
`from_image_data`'s scan loop. -/
def learned (data : ImageData) (tile_sz : Nat) : List (List Nat) × List Nat :=
  (scan_positions data.width data.height).foldl (learn_step data tile_sz) ([], [])

/-- The per-direction overlap test of `from_image_data`'s rule construction:
`tiles_match(tile1, tile2, offset.0, offset.1, tile_sz)`. -/
def match_dir (tiles : List (List Nat)) (tile_sz : Nat) (direction id1 id2 : Nat) : Bool :=
  let off := OFFSETS.getD direction (0, 0)
  tiles_match (tiles.getD id1 []) (tiles.getD id2 []) off.1 off.2 tile_sz

/-- The innermost loop of `from_image_data`'s rule construction: for one ordered
pair `(id1, id2)`, add a rule for every direction whose overlap test passes. -/
def add_pair_rules (tiles : List (List Nat)) (tile_sz : Nat) (id1 id2 : Nat)
    (r : RuleTable) : RuleTable :=
  (List.range OFFSETS.length).foldl (fun r3 direction =>
    if match_dir tiles tile_sz direction id1 id2
    then r3.add_rule direction id1 id2 else r3) r

/-- The rule-construction double loop of `from_image_data`
(`for (id1, tile1) { for (id2, tile2) { for (direction, offset) { .. } } }`). -/
def build_rules (tiles : List (List Nat)) (tile_sz : Nat) : RuleTable :=
  (List.range tiles.length).foldl (fun r1 id1 =>
    (List.range tiles.length).foldl (fun r2 id2 =>
      add_pair_rules tiles tile_sz id1 id2 r2) r1)
    (RuleTable.new tiles.length)

/-- From `src/wfc.rs`: `WFCParameters`. -/
structure WFCParameters where
  wfc_tiles : List Nat
  wfc_rules : RuleTable
  wfc_frequency : List Nat
  wfc_tile_sz : Nat
  deriving Repr, DecidableEq

/-- `WFCParameters::from_image_data` (the stored `wfc_tiles` keeps only the
first pixel `tile[0]` of each learned tile). -/
def WFCParameters.from_image_data (data : ImageData) (tile_sz : Nat) : WFCParameters :=
  { wfc_tiles := (learned data tile_sz).1.map (fun tile => tile.getD 0 0)
    wfc_rules := build_rules (learned data tile_sz).1 tile_sz
    wfc_frequency := (learned data tile_sz).2
    wfc_tile_sz := tile_sz }

/-- From `src/wfc.rs`: `WFCState` — the superposition field plus the entropy
queue (see the header on how `BinaryHeap<TileIndex>` is modelled). -/
structure WFCState where
  superpositions : List (List Nat)
  tile_queue : List Nat
  deriving Repr, DecidableEq

/-- `WFCState::new`.  The source draws `rand_index` as
`rng.gen::<usize>() % (w * h)` from a `rand::thread_rng()` it creates
internally; the drawn value is the explicit `rand_value` argument here. -/
def WFCState.new (w h : Nat) (tiles : List Nat) (_frequencies : List Nat)
    (rand_value : Nat) : WFCState :=
  let superpos := List.replicate (w * h) (List.range tiles.length)
  let rand_index := rand_value % (w * h)
  { superpositions := superpos, tile_queue := [rand_index] }

/-- `WFCState::done` — emptiness of the entropy queue. -/
def WFCState.done (st : WFCState) : Bool :=
  st.tile_queue.isEmpty

/-- The cumulative-weight walk inside `generate_weighted`: first index whose
cumulative weight exceeds `rand_value`, `none` when the list is exhausted. -/
def generate_weighted_walk (rand_value : Nat) : List Nat → Nat → Nat → Option Nat
  | [], _, _ => none
  | v :: rest, i, current_total =>
    if rand_value < current_total + v then some i
    else generate_weighted_walk rand_value rest (i + 1) (current_total + v)

/-- From `src/wfc.rs`: `generate_weighted` (the random draw `rng.gen::<u32>()`
is the explicit argument `r`; in Rust `r % 0` panics, here `Nat.mod r 0 = r`). -/
def generate_weighted (r : Nat) (weights : List Nat) : Nat :=
  if weights.isEmpty then 0
  else
    let total := weights.foldl (· + ·) 0
    let rand_value := r % total
    (generate_weighted_walk rand_value weights 0 0).getD (weights.length - 1)

/-- From `src/wfc.rs`: `random_element` specialised to `T = usize`
(the draw for the unweighted branch reuses `r`). -/
def random_element (vec : List Nat) (r : Nat) (weights : Option (List Nat)) : Option Nat :=
  if vec.isEmpty then none
  else
    match weights with
    | some weight_list => some (vec.getD (generate_weighted r weight_list) 0)
    | none => some (vec.getD (r % vec.length) 0)

/-- Row-major cell index of a coordinate pair, `x + y * w` (the source writes
`adj_x + adj_y * w` inline). -/
def cell_index (w : Nat) (p : Nat × Nat) : Nat := p.1 + p.2 * w

/-- The wrapped neighbor coordinate used by `update_adjacent_tiles` and
`propagate`: `(wrap_value(pos + offset, w), wrap_value(pos + offset, h))`. -/
def adj_coord (posx posy : Int) (w h : Nat) (direction : Nat) : Nat × Nat :=
  let off := OFFSETS.getD direction (0, 0)
  (wrap_value (posx + off.1) w, wrap_value (posy + off.2) h)

/-- One direction of `update_adjacent_tiles`: build the `allowed` boolean list
(`allowed[t2] = ∃ t ∈ superpositions[x + y*w], okay(direction, t, t2)`, a
`Vec<bool>` of length `tile_count` accumulated by the source's inner loops)
and intersect the neighbor's superposition with it. -/
def upd_dir (sp : List (List Nat)) (x y : Int) (w h : Nat) (rules : RuleTable)
    (direction : Nat) : List (List Nat) :=
  let src := sp.getD (cell_index w (x.toNat, y.toNat)) []
  let allowed := (List.range rules.tile_count).map
    (fun t2 => src.any (fun t => rules.okay direction t t2))
  let index := cell_index w (adj_coord x y w h direction)
  sp.set index ((sp.getD index []).filter (fun t => allowed.getD t false))

/-- From `src/wfc.rs`: `update_adjacent_tiles` — the four directions applied in
order. -/
def update_adjacent_tiles (sp : List (List Nat)) (x y : Int) (w h : Nat)
    (rules : RuleTable) : List (List Nat) :=
  (List.range OFFSETS.length).foldl (fun sp2 direction => upd_dir sp2 x y w h rules direction) sp

/-- The post-update check loop of `propagate` over the four directions:
an empty neighbor aborts with the queue as accumulated so far (`.error`);
a neighbor whose size equals the recorded `prev_entropy` and is `> 1` pushes a
queue entry (the source pushes `TileIndex(entropy(..), index)`); a neighbor
whose size changed is pushed onto the work-stack. -/
def propagate_checks (sp : List (List Nat)) (w h : Nat) (posx posy : Int)
    (prev : List Nat) (queue : List Nat) (stack : List (Int × Int)) :
    List Nat → Except (List Nat) (List Nat × List (Int × Int))
  | [] => .ok (queue, stack)
  | direction :: rest =>
    let c := adj_coord posx posy w h direction
    let index := cell_index w c
    if (sp.getD index []).isEmpty then .error queue
    else if (sp.getD index []).length = prev.getD direction 0 then
      if 1 < (sp.getD index []).length then
        propagate_checks sp w h posx posy prev (queue ++ [index]) stack rest
      else propagate_checks sp w h posx posy prev queue stack rest
    else propagate_checks sp w h posx posy prev queue (((c.1 : Int), (c.2 : Int)) :: stack) rest

/-- From `src/wfc.rs`: `propagate`, fuel-indexed.  Per iteration: pop the stack,
record `prev_entropy` (the four neighbor sizes before the update), run
`update_adjacent_tiles`, then run the check loop; result `true` means a
contradiction was found (`step` turns it into an error). -/
def propagate (fuel : Nat) (sp : List (List Nat)) (params : WFCParameters)
    (w h : Nat) (queue : List Nat) (stack : List (Int × Int)) :
    Option (Bool × List (List Nat) × List Nat) :=
  match fuel with
  | 0 => none
  | fuel + 1 =>
    match stack with
    | [] => some (false, sp, queue)
    | (posx, posy) :: rest =>
      let prev := (List.range OFFSETS.length).map (fun direction =>
        (sp.getD (cell_index w (adj_coord posx posy w h direction)) []).length)
      let sp2 := update_adjacent_tiles sp posx posy w h params.wfc_rules
      match propagate_checks sp2 w h posx posy prev queue rest [0, 1, 2, 3] with
      | .error q => some (true, sp2, q)
      | .ok (q, stack2) => propagate fuel sp2 params w h q stack2

/-- From `src/wfc.rs`: `WFCParameters::step`.  Pops the queue
(`unwrap_or(TileIndex(0.0, 0))` substitutes cell 0 when empty), returns `Ok`
at once when the popped cell has at most one candidate, otherwise collapses it
to a frequency-weighted random candidate and propagates.  The single
`rng.gen::<u32>()` draw of the weighted choice is the explicit argument `r`. -/
def WFCParameters.step (params : WFCParameters) (w h : Nat) (st : WFCState)
    (r : Nat) (fuel : Nat) : Option (Except String Unit × WFCState) :=
  let rand_tile_index := st.tile_queue.head?.getD 0
  let rest_queue := st.tile_queue.tail
  if (st.superpositions.getD rand_tile_index []).length ≤ 1 then
    some (.ok (), { superpositions := st.superpositions, tile_queue := rest_queue })
  else
    let weights := (st.superpositions.getD rand_tile_index []).map
      (fun tile => params.wfc_frequency.getD tile 0)
    let chosen := (random_element (st.superpositions.getD rand_tile_index [])
      r (some weights)).getD 0
    let sp1 := st.superpositions.set rand_tile_index [chosen]
    let x : Int := (rand_tile_index % w : Nat)
    let y : Int := (rand_tile_index / w : Nat)
    match propagate fuel sp1 params w h rest_queue [(x, y)] with
    | none => none
    | some (failed, sp2, q2) =>
      if failed then some (.error "WFC Failed", { superpositions := sp2, tile_queue := q2 })
      else some (.ok (), { superpositions := sp2, tile_queue := q2 })

/-! ### Spec-side predicates (phrased from the claims, over the embedded state) -/

/-- Local arc-consistency of one arc: every tile in cell `p`'s candidate set
has a compatible tile in the toroidal neighbor in direction `d`. -/
def arc_at (sp : List (List Nat)) (rules : RuleTable) (w h : Nat)
    (p : Nat × Nat) (d : Nat) : Prop :=
  ∀ t ∈ sp.getD (cell_index w p) [],
    ∃ t' ∈ sp.getD (cell_index w (adj_coord (p.1 : Int) (p.2 : Int) w h d)) [],
      rules.okay d t t' = true

instance (sp : List (List Nat)) (rules : RuleTable) (w h : Nat) (p : Nat × Nat) (d : Nat) :
    Decidable (arc_at sp rules w h p d) := by
  unfold arc_at; infer_instance

/-- Global local-arc-consistency: every cell, every direction. -/
def arc_consistent (sp : List (List Nat)) (rules : RuleTable) (w h : Nat) : Prop :=
  ∀ x < w, ∀ y < h, ∀ d < 4, arc_at sp rules w h (x, y) d

instance (sp : List (List Nat)) (rules : RuleTable) (w h : Nat) :
    Decidable (arc_consistent sp rules w h) := by
  unfold arc_consistent; infer_instance

/-- Weak symmetry of a rule table (spec §3): a rule in direction `d` has the
converse rule in the opposite direction `(d + 2) % 4`, for in-range tile ids. -/
def symmetric_rules (rules : RuleTable) : Prop :=
  ∀ d < 4, ∀ t < rules.tile_count, ∀ u < rules.tile_count,
    rules.okay d t u = true → rules.okay ((d + 2) % 4) u t = true

instance (rules : RuleTable) : Decidable (symmetric_rules rules) := by
  unfold symmetric_rules; infer_instance

/-- Queue well-formedness: every stored cell index is in range. -/
def queue_wf (w h : Nat) (q : List Nat) : Prop := ∀ i ∈ q, i < w * h

instance (w h : Nat) (q : List Nat) : Decidable (queue_wf w h q) := by
  unfold queue_wf; infer_instance

/-- Stack well-formedness: every stacked coordinate is the cast of an in-range
`(x, y)` pair. -/
def stack_wf (w h : Nat) (stack : List (Int × Int)) : Prop :=
  ∀ z ∈ stack, ∃ a b, a < w ∧ b < h ∧ z = ((a : Int), (b : Int))

/-- The invariant maintained while `propagate` runs: every arc that is not yet
locally consistent has its target coordinate waiting on the work-stack. -/
def prop_inv (sp : List (List Nat)) (rules : RuleTable) (w h : Nat)
    (stack : List (Int × Int)) : Prop :=
  ∀ x < w, ∀ y < h, ∀ d < 4, arc_at sp rules w h (x, y) d ∨
    (((adj_coord (x : Int) (y : Int) w h d).1 : Int),
      ((adj_coord (x : Int) (y : Int) w h d).2 : Int)) ∈ stack

/-- No cell's candidate set is empty (first `n` cells). -/
def all_nonempty (sp : List (List Nat)) (n : Nat) : Prop :=
  ∀ i < n, sp.getD i [] ≠ []

instance (sp : List (List Nat)) (n : Nat) : Decidable (all_nonempty sp n) := by
  unfold all_nonempty; infer_instance

/-! ### Concrete instances used as inputs of counterexamples and witnesses -/

/-- A 2×1 source image with two distinct pixels. -/
def imgTwoPixel : ImageData := ⟨[0, 1], 2, 1⟩

/-- A 2×2 source image with vertical stripes (pixels 0,1,0,1). -/
def imgStripes : ImageData := ⟨[0, 1, 0, 1], 2, 2⟩

/-- A uniform 2×2 source image (every pixel 5). -/
def imgUniform : ImageData := ⟨[5, 5, 5, 5], 2, 2⟩

/-- Parameters learned from `imgStripes` with tile size 1: two tiles, and every
adjacency is allowed (a 1×1 overlap shifted by a unit offset is empty, so the
overlap test passes vacuously). -/
def paramsStripes : WFCParameters := WFCParameters.from_image_data imgStripes 1

/-- A 2×2 field over `paramsStripes` in which cell 0 has just been collapsed to
tile 0 and the other three cells are still undetermined. -/
def spStripes : List (List Nat) := [[0], [0, 1], [0, 1], [0, 1]]

/-! ### List utilities -/

theorem getD_set_self {α : Type} (l : List α) (i : Nat) (v d : α) (h : i < l.length) :
    (l.set i v).getD i d = v := by
  rw [List.getD_eq_getElem?_getD, List.getElem?_set_self h]
  rfl

theorem getD_set_ne {α : Type} (l : List α) {i j : Nat} (v d : α) (h : i ≠ j) :
    (l.set i v).getD j d = l.getD j d := by
  rw [List.getD_eq_getElem?_getD, List.getElem?_set_ne h, ← List.getD_eq_getElem?_getD]

theorem getD_set_filter_sublist {α : Type} (l : List (List α)) (i j : Nat) (p : α → Bool) :
    ((l.set i ((l.getD i []).filter p)).getD j []).Sublist (l.getD j []) := by
  by_cases hij : i = j
  · subst hij
    by_cases hlen : i < l.length
    · rw [getD_set_self _ _ _ _ hlen]
      exact List.filter_sublist _
    · rw [List.set_eq_of_length_le (le_of_not_lt hlen)]
  · rw [getD_set_ne _ _ _ hij]

/-! ### Arithmetic facts about `wrap_value` -/

/-- Outside the broken case (`v` a negative multiple of `max`), `wrap_value`
computes the mathematical (euclidean) remainder. -/
theorem wrap_value_eq_emod {v : Int} {max : Nat} (hmax : 0 < max)
    (hv : ¬(v < 0 ∧ (max : Int) ∣ v)) : (wrap_value v max : Int) = v % max := by
  unfold wrap_value
  split
  case isTrue hneg =>
    have hndvd : ¬ (max : Int) ∣ v := fun hd => hv ⟨hneg, hd⟩
    set n := (-v).toNat with hn
    have hvn : (n : Int) = -v := Int.toNat_of_nonneg (by omega)
    have hr0 : n % max ≠ 0 := by
      intro h0
      apply hndvd
      have hdn : (max : Int) ∣ (n : Int) := by
        exact_mod_cast Nat.dvd_of_mod_eq_zero h0
      rw [hvn] at hdn
      exact (Int.dvd_neg).mp hdn
    have hrlt : n % max < max := Nat.mod_lt _ hmax
    obtain ⟨q, hq⟩ : ∃ q, n = max * q + n % max := ⟨n / max, (Nat.div_add_mod _ _).symm⟩
    have hveq : v = ((max : Int) - ((n % max : Nat) : Int)) + (-(q : Int) - 1) * max := by
      have h1 : (n : Int) = (max : Int) * (q : Int) + ((n % max : Nat) : Int) := by
        exact_mod_cast hq
      have h2 : v = -((max : Int) * (q : Int) + ((n % max : Nat) : Int)) := by omega
      rw [h2]; ring
    have hcast : ((max - n % max : Nat) : Int) =
        (max : Int) - ((n % max : Nat) : Int) := by omega
    rw [hcast, hveq, Int.add_mul_emod_self, Int.emod_eq_of_lt (by omega) (by omega)]
  case isFalse hpos =>
    have h0 : 0 ≤ v := by omega
    rw [Int.natCast_mod, Int.toNat_of_nonneg h0]

/-- Outside the broken case, `wrap_value` lands in `[0, max)`. -/
theorem wrap_value_lt {v : Int} {max : Nat} (hmax : 0 < max)
    (hv : ¬(v < 0 ∧ (max : Int) ∣ v)) : wrap_value v max < max := by
  have h := wrap_value_eq_emod hmax hv
  have h2 : v % (max : Int) < max := Int.emod_lt_of_pos v (by exact_mod_cast hmax)
  omega

/-- `wrap_value` on an already-in-range natural is the identity. -/
theorem wrap_value_coe_lt {a max : Nat} (h : a < max) : wrap_value (a : Int) max = a := by
  unfold wrap_value
  rw [if_neg (by omega)]
  simp [Nat.mod_eq_of_lt h]

/-- `wrap_value` is determined by the residue, away from the broken case. -/
theorem wrap_value_congr {v v' : Int} {max : Nat} (hmax : 0 < max)
    (hv : ¬(v < 0 ∧ (max : Int) ∣ v)) (hv' : ¬(v' < 0 ∧ (max : Int) ∣ v'))
    (hmod : v % max = v' % max) : wrap_value v max = wrap_value v' max := by
  have h1 := wrap_value_eq_emod hmax hv
  have h2 := wrap_value_eq_emod hmax hv'
  omega

/-! ### Claim C9 — `wrap_value` -/

/-- C9 counterexample: the claim "for every integer v and every max > 0,
`wrap_value(v, max)` is in `[0, max)` and congruent to v modulo max" fails at
`v = -1, max = 1`, where `wrap_value` returns `max` itself (`1 ∉ [0, 1)`);
the same happens at every negative multiple of `max`. -/
theorem C9_counterexample :
    ¬ (∀ (v : Int) (max : Nat), 0 < max →
        wrap_value v max < max ∧ (wrap_value v max : Int) % max = v % max) := by
  intro hcl
  have h := (hcl (-1) 1 (by norm_num)).1
  revert h
  decide

/-- C9 (amended): for every integer `v` and every `max > 0` such that `v` is
not a negative multiple of `max`, `wrap_value(v, max)` is in `[0, max)` and is
congruent to `v` modulo `max`.  (At a negative multiple the function returns
`max`, one past the valid range.) -/
theorem C9_wrap_value_in_range_and_congruent (v : Int) (max : Nat) (hmax : 0 < max)
    (hv : ¬(v < 0 ∧ (max : Int) ∣ v)) :
    wrap_value v max < max ∧ (wrap_value v max : Int) % max = v % max := by
  refine ⟨wrap_value_lt hmax hv, ?_⟩
  rw [wrap_value_eq_emod hmax hv, Int.emod_emod_of_dvd _ dvd_rfl]

/-- Witness for C9: the amended theorem applied at `v = -5`, `max = 3`. -/
theorem C9_witness :
    ((0 < 3 ∧ ¬((-5 : Int) < 0 ∧ (3 : Int) ∣ (-5 : Int)))) ∧
    (wrap_value (-5) 3 < 3 ∧ (wrap_value (-5) 3 : Int) % 3 = (-5 : Int) % 3) :=
  ⟨⟨by norm_num, by omega⟩,
    C9_wrap_value_in_range_and_congruent (-5) 3 (by norm_num) (by omega)⟩

/-! ### Claim C2 — `done` -/

/-- C2 counterexample: `done` is queue emptiness, not "no undetermined cell".
Learning from the uniform image yields a single tile, so a fresh field has
every cell already collapsed (`|set| = 1` everywhere) while the seed entry
pushed by `WFCState::new` still sits in the queue: `done` is `false` although
no undetermined cell remains. -/
theorem C2_counterexample :
    ¬ ((WFCState.new 2 2 (WFCParameters.from_image_data imgUniform 1).wfc_tiles
          (WFCParameters.from_image_data imgUniform 1).wfc_frequency 0).done = true ↔
        ∀ i < 2 * 2,
          ((WFCState.new 2 2 (WFCParameters.from_image_data imgUniform 1).wfc_tiles
              (WFCParameters.from_image_data imgUniform 1).wfc_frequency
              0).superpositions.getD i []).length ≤ 1) := by
  decide

/-- C2 (amended): `done(field)` returns true if and only if the entropy
priority queue is empty; queue emptiness is not equivalent to every cell's
candidate set having size at most 1 (see the counterexample). -/
theorem C2_done_iff_queue_empty (st : WFCState) : st.done = true ↔ st.tile_queue = [] := by
  cases h : st.tile_queue <;> simp [WFCState.done, h]

/-! ### Claim C7 — provenance of randomness -/

/-- Supporting theorem for C7: the field produced by `WFCState::new` depends on
the value drawn from the generator that the source constructs internally via
`rand::thread_rng()` (modelled by the extra `rand_value` argument, which has no
counterpart in the Rust signature `new(w, h, tiles, frequencies)`).  Hence the
initial seed cell is not determined by the caller-visible inputs. -/
theorem C7_new_depends_on_hidden_draw :
    WFCState.new 2 2 [5] [4] 0 ≠ WFCState.new 2 2 [5] [4] 1 := by
  decide

/-! ### Claim C5 — self-adjacency of learned tiles (counterexample) -/

/-- C5 counterexample: learning from the 2×1 two-pixel image with tile size 2
produces two tiles, and tile 0 (`[0,1,0,1]`) is NOT allowed adjacent to itself
in direction 1 (offset `(1,0)`): the shifted overlap compares pixel 1 against
pixel 0, which differ.  So "allowed(t, d, t) for every learned tile t and every
direction d" is false. -/
theorem C5_counterexample :
    ¬ (∀ id1 < (WFCParameters.from_image_data imgTwoPixel 2).wfc_rules.tile_count, ∀ d < 4,
        (WFCParameters.from_image_data imgTwoPixel 2).wfc_rules.okay d id1 id1 = true) := by
  decide

/-! ### Claim C3 — queue insertions during propagation (counterexample) -/

/-- C3 counterexample: propagating from cell (0,0) of `spStripes` (every
adjacency allowed) changes no candidate set at all — the returned field equals
the input field — yet the run inserts entries into the entropy structure
(queue `[2, 1, 2, 1]`).  This refutes "insertions into the priority structure
happen exactly when a neighbor's set shrinks but stays above one tile": the
code inserts precisely when a neighbor's size is UNCHANGED and > 1, and pushes
shrunk neighbors only onto the work-stack. -/
theorem C3_counterexample :
    ∃ q, propagate 2 spStripes paramsStripes 2 2 [] [((0 : Int), (0 : Int))] =
        some (false, spStripes, q) ∧ q ≠ [] :=
  ⟨[2, 1, 2, 1], by decide, by decide⟩

/-! ### Claim C4 — stale pops (counterexample) -/

/-- C4 counterexample: with queue `[0, 1]`, cell 0 already collapsed and cell 1
still undetermined, `step` pops the stale entry for cell 0 and returns `Ok`
immediately: nothing is collapsed, the field is unchanged, and the
undetermined cell 1 is still queued.  No retry pop happens inside the step,
refuting the claim. -/
theorem C4_counterexample :
    ∃ st', WFCParameters.step paramsStripes 2 1 ⟨[[0], [0, 1]], [0, 1]⟩ 0 5 =
        some (Except.ok (), st') ∧
      st'.superpositions = [[0], [0, 1]] ∧ 1 ∈ st'.tile_queue ∧
      (st'.superpositions.getD 1 []).length > 1 :=
  ⟨⟨[[0], [0, 1]], [1]⟩, rfl, by decide, by decide, by decide⟩

/-- C4 (amended): if the popped lowest-entropy entry refers to an
already-collapsed cell (`|set| ≤ 1`, a stale entry), `step` discards that one
entry and returns `Ok` at once without collapsing anything; remaining queued
entries are only examined by later `step` calls. -/
theorem C4_stale_pop_returns_ok (params : WFCParameters) (w h : Nat) (st : WFCState)
    (r fuel : Nat) (q : Nat) (rest : List Nat)
    (hq : st.tile_queue = q :: rest)
    (hstale : (st.superpositions.getD q []).length ≤ 1) :
    params.step w h st r fuel =
      some (Except.ok (), { superpositions := st.superpositions, tile_queue := rest }) := by
  unfold WFCParameters.step
  simp only [hq, List.head?_cons, Option.getD_some, List.tail_cons, if_pos hstale]

/-- Witness for C4's amended theorem, at the state of the counterexample. -/
theorem C4_witness :
    ((([[0], [0, 1]] : List (List Nat)).getD 0 []).length ≤ 1) ∧
    WFCParameters.step paramsStripes 2 1 ⟨[[0], [0, 1]], [0, 1]⟩ 0 5 =
      some (Except.ok (), ⟨[[0], [0, 1]], [1]⟩) :=
  ⟨by decide,
    C4_stale_pop_returns_ok paramsStripes 2 1 ⟨[[0], [0, 1]], [0, 1]⟩ 0 5 0 [1] rfl (by decide)⟩

/-- C3 (amended): one pass of the post-update check loop over directions
`dirs`: provided no examined neighbor is empty, entropy-structure insertions
happen exactly for the directions whose neighbor size EQUALS the recorded
pre-update size and exceeds 1, while every neighbor whose size changed is
pushed onto the work-stack only (it receives no entropy entry at that point) —
the opposite pairing from the claim. -/
theorem C3_insertions_exactly_on_unchanged (sp : List (List Nat)) (w h : Nat)
    (posx posy : Int) (prev : List Nat) (queue : List Nat) (stack : List (Int × Int))
    (dirs : List Nat)
    (hne : ∀ d ∈ dirs,
      (sp.getD (cell_index w (adj_coord posx posy w h d)) []).isEmpty = false) :
    propagate_checks sp w h posx posy prev queue stack dirs =
      Except.ok
        (queue ++ (dirs.filter (fun d =>
            decide ((sp.getD (cell_index w (adj_coord posx posy w h d)) []).length =
                prev.getD d 0 ∧
              1 < (sp.getD (cell_index w (adj_coord posx posy w h d)) []).length))).map
            (fun d => cell_index w (adj_coord posx posy w h d)),
          (dirs.filter (fun d =>
            decide (¬((sp.getD (cell_index w (adj_coord posx posy w h d)) []).length =
                prev.getD d 0)))).foldl
            (fun s d => (((adj_coord posx posy w h d).1 : Int),
              ((adj_coord posx posy w h d).2 : Int)) :: s) stack) := by
  induction dirs generalizing queue stack with
  | nil => simp [propagate_checks]
  | cons d rest ih =>
    have hd := hne d (List.mem_cons_self d rest)
    have hrest : ∀ d' ∈ rest,
        (sp.getD (cell_index w (adj_coord posx posy w h d')) []).isEmpty = false :=
      fun d' hd' => hne d' (List.mem_cons_of_mem d hd')
    simp only [List.filter_cons, decide_eq_true_eq]
    by_cases hlen : (sp.getD (cell_index w (adj_coord posx posy w h d)) []).length =
        prev.getD d 0
    · by_cases hgt : 1 < (sp.getD (cell_index w (adj_coord posx posy w h d)) []).length
      · rw [if_pos (And.intro hlen hgt), if_neg (not_not_intro hlen), List.map_cons]
        have hstep : propagate_checks sp w h posx posy prev queue stack (d :: rest) =
            propagate_checks sp w h posx posy prev
              (queue ++ [cell_index w (adj_coord posx posy w h d)]) stack rest := by
          simp only [propagate_checks]
          rw [if_neg (by rw [hd]; exact Bool.false_ne_true), if_pos hlen, if_pos hgt]
        rw [hstep, ih _ _ hrest]
        simp
      · rw [if_neg (fun hc : _ ∧ _ => hgt hc.2), if_neg (not_not_intro hlen)]
        have hstep : propagate_checks sp w h posx posy prev queue stack (d :: rest) =
            propagate_checks sp w h posx posy prev queue stack rest := by
          simp only [propagate_checks]
          rw [if_neg (by rw [hd]; exact Bool.false_ne_true), if_pos hlen, if_neg hgt]
        rw [hstep]
        exact ih _ _ hrest
    · rw [if_neg (fun hc : _ ∧ _ => hlen hc.1), if_pos hlen, List.foldl_cons]
      have hstep : propagate_checks sp w h posx posy prev queue stack (d :: rest) =
          propagate_checks sp w h posx posy prev queue
            ((((adj_coord posx posy w h d).1 : Int),
              ((adj_coord posx posy w h d).2 : Int)) :: stack) rest := by
        simp only [propagate_checks]
        rw [if_neg (by rw [hd]; exact Bool.false_ne_true), if_neg hlen]
      rw [hstep]
      exact ih _ _ hrest

/-- Witness for C3's amended theorem: the check loop on the `spStripes` field
(no set changed; all four neighbors keep size 2) inserts all four entries and
pushes nothing on the stack. -/
theorem C3_witness :
    (∀ d ∈ [0, 1, 2, 3],
      (spStripes.getD (cell_index 2 (adj_coord 0 0 2 2 d)) []).isEmpty = false) ∧
    propagate_checks spStripes 2 2 0 0 [2, 2, 2, 2] [] [] [0, 1, 2, 3] =
      Except.ok ([2, 1, 2, 1], []) := by
  refine ⟨by decide, ?_⟩
  have h := C3_insertions_exactly_on_unchanged spStripes 2 2 0 0 [2, 2, 2, 2] [] []
    [0, 1, 2, 3] (by decide)
  rw [h]
  rfl

/-! ### Characterization of the constructed `RuleTable` -/

theorem OFFSETS_length : OFFSETS.length = 4 := rfl

theorem flat_lt {n i d j : Nat} (hi : i < n) (hd : d < 4) (hj : j < n) :
    i * n * 4 + d * n + j < n * n * 4 := by
  have h1 : 4 * i + d + 1 ≤ 4 * n := by omega
  calc i * n * 4 + d * n + j = n * (4 * i + d) + j := by ring
    _ < n * (4 * i + d) + n := by omega
    _ = n * (4 * i + d + 1) := by ring
    _ ≤ n * (4 * n) := Nat.mul_le_mul_left n h1
    _ = n * n * 4 := by ring

theorem flat_inj {n i i' d d' j j' : Nat} (hd : d < 4) (hd' : d' < 4)
    (hj : j < n) (hj' : j' < n)
    (heq : i * n * 4 + d * n + j = i' * n * 4 + d' * n + j') :
    i = i' ∧ d = d' ∧ j = j' := by
  have hn : 0 < n := by omega
  have heq2 : n * (4 * i + d) + j = n * (4 * i' + d') + j' := by
    rw [show n * (4 * i + d) + j = i * n * 4 + d * n + j by ring,
      show n * (4 * i' + d') + j' = i' * n * 4 + d' * n + j' by ring]
    exact heq
  have hjj : j = j' := by
    have hmod := congrArg (· % n) heq2
    simpa [Nat.mul_add_mod, Nat.mod_eq_of_lt hj, Nat.mod_eq_of_lt hj'] using hmod
  have hda : 4 * i + d = 4 * i' + d' :=
    Nat.eq_of_mul_eq_mul_left hn (by omega)
  omega

theorem add_rule_tile_count (r : RuleTable) (d i j : Nat) :
    (r.add_rule d i j).tile_count = r.tile_count := rfl

theorem add_rule_rules_length (r : RuleTable) (d i j : Nat) :
    (r.add_rule d i j).rules.length = r.rules.length := List.length_set _ _ _

theorem okay_add_rule_self {r : RuleTable} {n d i j : Nat}
    (hc : r.tile_count = n) (hl : r.rules.length = n * n * 4)
    (hi : i < n) (hd : d < 4) (hj : j < n) :
    (r.add_rule d i j).okay d i j = true := by
  unfold RuleTable.add_rule RuleTable.okay
  simp only [OFFSETS_length, hc]
  exact getD_set_self _ _ _ _ (by rw [hl]; exact flat_lt hi hd hj)

theorem okay_add_rule_ne {r : RuleTable} {n d i j d' i' j' : Nat}
    (hc : r.tile_count = n)
    (hd : d < 4) (hj : j < n) (hd' : d' < 4) (hj' : j' < n)
    (hne : ¬(i' = i ∧ d' = d ∧ j' = j)) :
    (r.add_rule d i j).okay d' i' j' = r.okay d' i' j' := by
  unfold RuleTable.add_rule RuleTable.okay
  simp only [OFFSETS_length, hc]
  refine getD_set_ne _ _ _ (fun heq => hne ?_)
  obtain ⟨h1, h2, h3⟩ := flat_inj hd hd' hj hj' heq
  exact ⟨h1.symm, h2.symm, h3.symm⟩

/-- The direction fold of `add_pair_rules`, characterized. -/
theorem okay_dirs_foldl {tiles : List (List Nat)} {ts n : Nat} {i j : Nat}
    (l : List Nat) (r : RuleTable)
    (hc : r.tile_count = n) (hl : r.rules.length = n * n * 4)
    (hi : i < n) (hj : j < n)
    {d' i' j' : Nat} (hd' : d' < 4) (hi' : i' < n) (hj' : j' < n)
    (hld : ∀ d ∈ l, d < 4) :
    ((l.foldl (fun r3 direction =>
        if match_dir tiles ts direction i j
        then r3.add_rule direction i j else r3) r).okay d' i' j') =
      (if i' = i ∧ j' = j ∧ d' ∈ l ∧ match_dir tiles ts d' i j = true then true
       else r.okay d' i' j') := by
  induction l generalizing r with
  | nil => simp
  | cons d rest ih =>
    have hdlt : d < 4 := hld d (List.mem_cons_self d rest)
    have hrest : ∀ d'' ∈ rest, d'' < 4 := fun d'' hm => hld d'' (List.mem_cons_of_mem d hm)
    rw [List.foldl_cons]
    by_cases hcond : match_dir tiles ts d i j = true
    · rw [if_pos hcond]
      rw [ih (r.add_rule d i j) (by rw [add_rule_tile_count, hc])
        (by rw [add_rule_rules_length, hl]) hrest]
      by_cases hin : i' = i ∧ j' = j ∧ d' ∈ rest ∧ match_dir tiles ts d' i j = true
      · rw [if_pos hin, if_pos ⟨hin.1, hin.2.1, List.mem_cons_of_mem d hin.2.2.1, hin.2.2.2⟩]
      · rw [if_neg hin]
        by_cases heq : i' = i ∧ d' = d ∧ j' = j
        · rw [heq.1, heq.2.1, heq.2.2]
          rw [okay_add_rule_self hc hl hi hdlt hj,
            if_pos ⟨rfl, rfl, List.mem_cons_self d rest, heq.2.1 ▸ hcond⟩]
        · rw [okay_add_rule_ne hc hdlt hj hd' hj' heq]
          rw [if_neg ?_]
          intro ⟨h1, h2, h3, h4⟩
          rcases List.mem_cons.mp h3 with h5 | h5
          · exact heq ⟨h1, h5, h2⟩
          · exact hin ⟨h1, h2, h5, h4⟩
    · rw [if_neg hcond]
      rw [ih r hc hl hrest]
      by_cases hin : i' = i ∧ j' = j ∧ d' ∈ rest ∧ match_dir tiles ts d' i j = true
      · rw [if_pos hin, if_pos ⟨hin.1, hin.2.1, List.mem_cons_of_mem d hin.2.2.1, hin.2.2.2⟩]
      · rw [if_neg hin, if_neg ?_]
        intro ⟨h1, h2, h3, h4⟩
        rcases List.mem_cons.mp h3 with h5 | h5
        · exact hcond (h5 ▸ h4)
        · exact hin ⟨h1, h2, h5, h4⟩

theorem add_pair_tile_count (tiles : List (List Nat)) (ts i j : Nat) (r : RuleTable) :
    (add_pair_rules tiles ts i j r).tile_count = r.tile_count := by
  unfold add_pair_rules
  generalize List.range OFFSETS.length = l
  induction l generalizing r with
  | nil => rfl
  | cons d rest ih =>
    rw [List.foldl_cons]
    by_cases hcond : match_dir tiles ts d i j = true
    · rw [if_pos hcond, ih]; rfl
    · rw [if_neg hcond, ih]

theorem add_pair_rules_length (tiles : List (List Nat)) (ts i j : Nat) (r : RuleTable) :
    (add_pair_rules tiles ts i j r).rules.length = r.rules.length := by
  unfold add_pair_rules
  generalize List.range OFFSETS.length = l
  induction l generalizing r with
  | nil => rfl
  | cons d rest ih =>
    rw [List.foldl_cons]
    by_cases hcond : match_dir tiles ts d i j = true
    · rw [if_pos hcond, ih, add_rule_rules_length]
    · rw [if_neg hcond, ih]

/-- `add_pair_rules`, characterized. -/
theorem okay_add_pair_rules {tiles : List (List Nat)} {ts n : Nat} {i j : Nat}
    (r : RuleTable) (hc : r.tile_count = n) (hl : r.rules.length = n * n * 4)
    (hi : i < n) (hj : j < n)
    {d' i' j' : Nat} (hd' : d' < 4) (hi' : i' < n) (hj' : j' < n) :
    (add_pair_rules tiles ts i j r).okay d' i' j' =
      (if i' = i ∧ j' = j ∧ match_dir tiles ts d' i j = true then true
       else r.okay d' i' j') := by
  unfold add_pair_rules
  rw [okay_dirs_foldl (List.range OFFSETS.length) r hc hl hi hj hd' hi' hj'
    (fun d hm => by simpa [OFFSETS_length] using List.mem_range.mp (by simpa using hm))]
  have hmem : d' ∈ List.range OFFSETS.length := by
    rw [OFFSETS_length]; exact List.mem_range.mpr hd'
  by_cases hcase : i' = i ∧ j' = j ∧ match_dir tiles ts d' i j = true
  · rw [if_pos ⟨hcase.1, hcase.2.1, hmem, hcase.2.2⟩, if_pos hcase]
  · rw [if_neg (fun ⟨h1, h2, _, h4⟩ => hcase ⟨h1, h2, h4⟩), if_neg hcase]

/-- The inner `id2` fold of `build_rules`, characterized. -/
theorem okay_inner_foldl {tiles : List (List Nat)} {ts n : Nat} {i : Nat}
    (l : List Nat) (r : RuleTable)
    (hc : r.tile_count = n) (hl : r.rules.length = n * n * 4)
    (hi : i < n) (hln : ∀ j ∈ l, j < n)
    {d' i' j' : Nat} (hd' : d' < 4) (hi' : i' < n) (hj' : j' < n) :
    ((l.foldl (fun r2 j => add_pair_rules tiles ts i j r2) r).okay d' i' j') =
      (if i' = i ∧ j' ∈ l ∧ match_dir tiles ts d' i j' = true then true
       else r.okay d' i' j') := by
  induction l generalizing r with
  | nil => simp
  | cons j rest ih =>
    have hjlt : j < n := hln j (List.mem_cons_self j rest)
    have hrest : ∀ j'' ∈ rest, j'' < n := fun j'' hm => hln j'' (List.mem_cons_of_mem j hm)
    rw [List.foldl_cons,
      ih (add_pair_rules tiles ts i j r) (by rw [add_pair_tile_count, hc])
        (by rw [add_pair_rules_length, hl]) hrest]
    by_cases hin : i' = i ∧ j' ∈ rest ∧ match_dir tiles ts d' i j' = true
    · rw [if_pos hin, if_pos ⟨hin.1, List.mem_cons_of_mem j hin.2.1, hin.2.2⟩]
    · rw [if_neg hin, okay_add_pair_rules r hc hl hi hjlt hd' hi' hj']
      by_cases heq : i' = i ∧ j' = j ∧ match_dir tiles ts d' i j = true
      · rw [if_pos heq,
          if_pos ⟨heq.1, heq.2.1 ▸ List.mem_cons_self j rest, heq.2.1 ▸ heq.2.2⟩]
      · rw [if_neg heq, if_neg ?_]
        intro ⟨h1, h2, h3⟩
        rcases List.mem_cons.mp h2 with h4 | h4
        · exact heq ⟨h1, h4, h4 ▸ h3⟩
        · exact hin ⟨h1, h4, h3⟩

theorem inner_foldl_tile_count (tiles : List (List Nat)) (ts i : Nat) (l : List Nat)
    (r : RuleTable) :
    ((l.foldl (fun r2 j => add_pair_rules tiles ts i j r2) r)).tile_count = r.tile_count := by
  induction l generalizing r with
  | nil => rfl
  | cons j rest ih => rw [List.foldl_cons, ih, add_pair_tile_count]

theorem inner_foldl_rules_length (tiles : List (List Nat)) (ts i : Nat) (l : List Nat)
    (r : RuleTable) :
    ((l.foldl (fun r2 j => add_pair_rules tiles ts i j r2) r)).rules.length =
      r.rules.length := by
  induction l generalizing r with
  | nil => rfl
  | cons j rest ih => rw [List.foldl_cons, ih, add_pair_rules_length]

/-- The outer `id1` fold of `build_rules`, characterized (the inner fold always
runs over all of `range n`). -/
theorem okay_outer_foldl {tiles : List (List Nat)} {ts n : Nat}
    (l : List Nat) (r : RuleTable)
    (hc : r.tile_count = n) (hl : r.rules.length = n * n * 4)
    (hln : ∀ i ∈ l, i < n)
    {d' i' j' : Nat} (hd' : d' < 4) (hi' : i' < n) (hj' : j' < n) :
    ((l.foldl (fun r1 i =>
        (List.range n).foldl (fun r2 j => add_pair_rules tiles ts i j r2) r1) r).okay d' i' j') =
      (if i' ∈ l ∧ match_dir tiles ts d' i' j' = true then true
       else r.okay d' i' j') := by
  induction l generalizing r with
  | nil => simp
  | cons i rest ih =>
    have hilt : i < n := hln i (List.mem_cons_self i rest)
    have hrest : ∀ i'' ∈ rest, i'' < n := fun i'' hm => hln i'' (List.mem_cons_of_mem i hm)
    rw [List.foldl_cons,
      ih _ (by rw [inner_foldl_tile_count, hc]) (by rw [inner_foldl_rules_length, hl]) hrest]
    by_cases hin : i' ∈ rest ∧ match_dir tiles ts d' i' j' = true
    · rw [if_pos hin, if_pos ⟨List.mem_cons_of_mem i hin.1, hin.2⟩]
    · rw [if_neg hin,
        okay_inner_foldl (List.range n) r hc hl hilt (fun j hm => List.mem_range.mp hm)
          hd' hi' hj']
      by_cases heq : i' = i ∧ j' ∈ List.range n ∧ match_dir tiles ts d' i j' = true
      · rw [if_pos heq, if_pos ⟨heq.1 ▸ List.mem_cons_self i rest, heq.1 ▸ heq.2.2⟩]
      · rw [if_neg heq, if_neg ?_]
        intro ⟨h1, h2⟩
        rcases List.mem_cons.mp h1 with h4 | h4
        · exact heq ⟨h4, List.mem_range.mpr hj', h4 ▸ h2⟩
        · exact hin ⟨h4, h2⟩

theorem getD_replicate_false (k m : Nat) :
    (List.replicate k false).getD m false = false := by
  rcases Nat.lt_or_ge m k with hlt | hge
  · rw [List.getD_eq_getElem _ _ (by simpa using hlt)]
    simp
  · rw [List.getD_eq_getElem?_getD, List.getElem?_eq_none (by simpa using hge)]
    rfl

theorem okay_new (n d i j : Nat) : (RuleTable.new n).okay d i j = false := by
  show (List.replicate (n * n * OFFSETS.length) false).getD
    (i * n * OFFSETS.length + d * n + j) false = false
  exact getD_replicate_false _ _

/-- The rule table built by `from_image_data`, fully characterized: for
in-range ids and directions, `okay d i j` holds exactly when the overlap test
passes for `(tiles[i], tiles[j])` shifted by direction `d`'s offset. -/
theorem okay_build_rules {tiles : List (List Nat)} {ts : Nat}
    {d i j : Nat} (hd : d < 4) (hi : i < tiles.length) (hj : j < tiles.length) :
    (build_rules tiles ts).okay d i j = match_dir tiles ts d i j := by
  unfold build_rules
  rw [okay_outer_foldl (List.range tiles.length) (RuleTable.new tiles.length)
    (show (RuleTable.new tiles.length).tile_count = tiles.length from rfl)
    (by simp [RuleTable.new, OFFSETS_length]) (fun i' hm => List.mem_range.mp hm) hd hi hj]
  by_cases hcase : match_dir tiles ts d i j = true
  · rw [if_pos ⟨List.mem_range.mpr hi, hcase⟩, hcase]
  · rw [if_neg (fun h => hcase h.2), okay_new]
    exact (Bool.not_eq_true _).mp hcase |>.symm

/-! ### The learning scan: every sample is learned, every learned tile is a sample -/

theorem learn_step_mem (data : ImageData) (ts : Nat)
    (acc : List (List Nat) × List Nat) (p : Nat × Nat) {t : List Nat} (ht : t ∈ acc.1) :
    t ∈ (learn_step data ts acc p).1 := by
  simp only [learn_step]
  rcases hix : List.indexOf? (sample_square data ts (p.1 : Int) (p.2 : Int)) acc.1 with _ | i
  · simp only [hix]
    exact List.mem_append_left _ ht
  · simp only [hix]
    exact ht

theorem learn_step_mem_self (data : ImageData) (ts : Nat)
    (acc : List (List Nat) × List Nat) (p : Nat × Nat) :
    sample_square data ts (p.1 : Int) (p.2 : Int) ∈ (learn_step data ts acc p).1 := by
  simp only [learn_step]
  rcases hix : List.indexOf? (sample_square data ts (p.1 : Int) (p.2 : Int)) acc.1 with _ | i
  · simp only [hix]
    exact List.mem_append_right _ (List.mem_singleton.mpr rfl)
  · simp only [hix]
    by_cases hmem : sample_square data ts (p.1 : Int) (p.2 : Int) ∈ acc.1
    · exact hmem
    · rw [List.indexOf?_eq_none_iff.mpr (fun x hx hbeq => hmem (by
        have hxe : x = sample_square data ts (p.1 : Int) (p.2 : Int) := eq_of_beq hbeq
        rwa [hxe] at hx))] at hix
      cases hix

theorem foldl_learn_mem (data : ImageData) (ts : Nat) (l : List (Nat × Nat))
    (acc : List (List Nat) × List Nat) {t : List Nat} (ht : t ∈ acc.1) :
    t ∈ (l.foldl (learn_step data ts) acc).1 := by
  induction l generalizing acc with
  | nil => exact ht
  | cons p rest ih => exact ih _ (learn_step_mem data ts acc p ht)

theorem foldl_learn_mem_sample (data : ImageData) (ts : Nat) (l : List (Nat × Nat))
    (acc : List (List Nat) × List Nat) {p : Nat × Nat} (hp : p ∈ l) :
    sample_square data ts (p.1 : Int) (p.2 : Int) ∈ (l.foldl (learn_step data ts) acc).1 := by
  induction l generalizing acc with
  | nil => cases hp
  | cons q rest ih =>
    rcases List.mem_cons.mp hp with h | h
    · subst h
      exact foldl_learn_mem data ts rest _ (learn_step_mem_self data ts acc p)
    · exact ih _ h

theorem mem_scan_positions {w h x y : Nat} (hx : x < w) (hy : y < h) :
    (x, y) ∈ scan_positions w h := by
  unfold scan_positions
  exact List.mem_flatMap.mpr ⟨y, List.mem_range.mpr hy,
    List.mem_map.mpr ⟨x, List.mem_range.mpr hx, rfl⟩⟩

/-- Every in-range sample occurs among the learned tiles. -/
theorem sample_mem_learned (data : ImageData) (ts : Nat) {x y : Nat}
    (hx : x < data.width) (hy : y < data.height) :
    sample_square data ts (x : Int) (y : Int) ∈ (learned data ts).1 :=
  foldl_learn_mem_sample data ts _ _ (mem_scan_positions hx hy)

/-- Every learned tile is the sample at some in-range position. -/
theorem learned_sampled (data : ImageData) (ts : Nat) :
    ∀ t ∈ (learned data ts).1, ∃ x, ∃ y, x < data.width ∧ y < data.height ∧
      t = sample_square data ts (x : Int) (y : Int) := by
  unfold learned
  have hgen : ∀ (l : List (Nat × Nat)) (acc : List (List Nat) × List Nat),
      (∀ p ∈ l, p.1 < data.width ∧ p.2 < data.height) →
      (∀ t ∈ acc.1, ∃ x, ∃ y, x < data.width ∧ y < data.height ∧
        t = sample_square data ts (x : Int) (y : Int)) →
      ∀ t ∈ (l.foldl (learn_step data ts) acc).1,
        ∃ x, ∃ y, x < data.width ∧ y < data.height ∧
          t = sample_square data ts (x : Int) (y : Int) := by
    intro l
    induction l with
    | nil => intro acc _ hacc; exact hacc
    | cons p rest ih =>
      intro acc hl hacc
      refine ih _ (fun q hq => hl q (List.mem_cons_of_mem p hq)) ?_
      intro t ht
      rcases hix : List.indexOf? (sample_square data ts (p.1 : Int) (p.2 : Int)) acc.1
          with _ | i
        <;> simp only [learn_step, hix] at ht
      · rcases List.mem_append.mp ht with h | h
        · exact hacc t h
        · obtain ⟨hp1, hp2⟩ := hl p (List.mem_cons_self p rest)
          exact ⟨p.1, p.2, hp1, hp2, List.mem_singleton.mp h⟩
      · exact hacc t ht
  refine hgen _ _ ?_ (fun t ht => absurd ht (List.not_mem_nil t))
  intro p hp
  unfold scan_positions at hp
  obtain ⟨y, hy, hmap⟩ := List.mem_flatMap.mp hp
  obtain ⟨x, hx, hxy⟩ := List.mem_map.mp hmap
  subst hxy
  exact ⟨List.mem_range.mp hx, List.mem_range.mp hy⟩

/-! ### Adjacent samples always pass the overlap test -/

theorem sample_getD (data : ImageData) (ts : Nat) (tx ty : Int) {ind : Nat}
    (hind : ind < ts * ts) :
    (sample_square data ts tx ty).getD ind 0 =
      data.get_pixel_wrap (tx + ((ind % ts : Nat) : Int)) (ty + ((ind / ts : Nat) : Int)) := by
  unfold sample_square
  rw [List.getD_eq_getElem _ _ (by simpa using hind)]
  simp

/-- The key geometric fact behind rule construction: the sample at `(x, y)` and
the sample at `(x + ox, y + oy)` always agree on their overlap, because both
read the same wrapped source pixels there. -/
theorem tiles_match_sample_shift (data : ImageData) (ts : Nat) (x y ox oy : Int) :
    tiles_match (sample_square data ts x y) (sample_square data ts (x + ox) (y + oy))
      ox oy ts = true := by
  unfold tiles_match
  rw [List.all_eq_true]
  intro yy hyy
  rw [List.all_eq_true]
  intro xx hxx
  have hyy' := List.mem_range.mp hyy
  have hxx' := List.mem_range.mp hxx
  have hts : 0 < ts := by omega
  by_cases hskip : ((xx : Int) - ox < 0 ∨ (yy : Int) - oy < 0 ∨
      (ts : Int) ≤ (xx : Int) - ox ∨ (ts : Int) ≤ (yy : Int) - oy)
  · simp only [if_pos hskip]
  · simp only [if_neg hskip]
    push_neg at hskip
    obtain ⟨h1, h2, h3, h4⟩ := hskip
    have hox : (((xx : Int) - ox).toNat : Int) = (xx : Int) - ox := Int.toNat_of_nonneg h1
    have hoy : (((yy : Int) - oy).toNat : Int) = (yy : Int) - oy := Int.toNat_of_nonneg h2
    have hoxlt : ((xx : Int) - ox).toNat < ts := by omega
    have hoylt : ((yy : Int) - oy).toNat < ts := by omega
    have hind1 : yy * ts + xx < ts * ts := by
      calc yy * ts + xx < yy * ts + ts := by omega
        _ = (yy + 1) * ts := by ring
        _ ≤ ts * ts := Nat.mul_le_mul_right ts hyy'
    have hind2 : ((yy : Int) - oy).toNat * ts + ((xx : Int) - ox).toNat < ts * ts := by
      calc ((yy : Int) - oy).toNat * ts + ((xx : Int) - ox).toNat
          < ((yy : Int) - oy).toNat * ts + ts := by omega
        _ = (((yy : Int) - oy).toNat + 1) * ts := by ring
        _ ≤ ts * ts := Nat.mul_le_mul_right ts hoylt
    rw [sample_getD data ts x y hind1, sample_getD data ts (x + ox) (y + oy) hind2]
    have hm1 : (yy * ts + xx) % ts = xx := by
      rw [Nat.mul_comm yy ts, Nat.mul_add_mod, Nat.mod_eq_of_lt hxx']
    have hd1 : (yy * ts + xx) / ts = yy := by
      rw [Nat.mul_comm yy ts, Nat.mul_add_div hts, Nat.div_eq_of_lt hxx', Nat.add_zero]
    have hm2 : (((yy : Int) - oy).toNat * ts + ((xx : Int) - ox).toNat) % ts =
        ((xx : Int) - ox).toNat := by
      rw [Nat.mul_comm _ ts, Nat.mul_add_mod, Nat.mod_eq_of_lt hoxlt]
    have hd2 : (((yy : Int) - oy).toNat * ts + ((xx : Int) - ox).toNat) / ts =
        ((yy : Int) - oy).toNat := by
      rw [Nat.mul_comm _ ts, Nat.mul_add_div hts, Nat.div_eq_of_lt hoxlt, Nat.add_zero]
    rw [hm1, hd1, hm2, hd2]
    rw [show x + ox + ((((xx : Int) - ox).toNat : Int)) = x + (xx : Int) from by
      rw [hox]; ring]
    rw [show y + oy + ((((yy : Int) - oy).toNat : Int)) = y + (yy : Int) from by
      rw [hoy]; ring]
    exact beq_self_eq_true _

/-! ### Normalizing a shifted sample position back into range -/

theorem wrap_value_lt_of_ge_neg_one {a : Int} {w : Nat} (hw : 2 ≤ w) (ha : -1 ≤ a) :
    wrap_value a w < w := by
  apply wrap_value_lt (by omega)
  rintro ⟨h1, h2⟩
  have ha1 : a = -1 := by omega
  rw [ha1] at h2
  have hd1 : (w : Int) ∣ 1 := (Int.dvd_neg).mp h2
  have := Int.le_of_dvd one_pos hd1
  omega

theorem wrap_shift_arg {a : Int} {w : Nat} (hw : 2 ≤ w) (ha : -1 ≤ a) :
    ∀ i : Nat, wrap_value (a + (i : Int)) w =
      wrap_value (((wrap_value a w : Nat) : Int) + (i : Int)) w := by
  intro i
  have hw0 : 0 < w := by omega
  have hbug_a : ¬(a < 0 ∧ (w : Int) ∣ a) := by
    rintro ⟨h1, h2⟩
    have ha1 : a = -1 := by omega
    rw [ha1] at h2
    have := Int.le_of_dvd one_pos ((Int.dvd_neg).mp h2)
    omega
  have hb1 : ¬(a + (i : Int) < 0 ∧ (w : Int) ∣ (a + (i : Int))) := by
    rintro ⟨h1, h2⟩
    have ha1 : a + (i : Int) = -1 := by omega
    rw [ha1] at h2
    have := Int.le_of_dvd one_pos ((Int.dvd_neg).mp h2)
    omega
  have hb2 : ¬(((wrap_value a w : Nat) : Int) + (i : Int) < 0 ∧
      (w : Int) ∣ (((wrap_value a w : Nat) : Int) + (i : Int))) := by
    rintro ⟨h1, _⟩
    omega
  apply wrap_value_congr hw0 hb1 hb2
  rw [wrap_value_eq_emod hw0 hbug_a]
  have hsplit : a % (w : Int) + (i : Int) = (a + (i : Int)) + (w : Int) * (-(a / w)) := by
    rw [Int.emod_def]; ring
  rw [hsplit, Int.add_mul_emod_self_left]

theorem sample_square_congr (data : ImageData) (ts : Nat) {tx tx' ty ty' : Int}
    (hx : ∀ i : Nat, wrap_value (tx + (i : Int)) data.width =
      wrap_value (tx' + (i : Int)) data.width)
    (hy : ∀ i : Nat, wrap_value (ty + (i : Int)) data.height =
      wrap_value (ty' + (i : Int)) data.height) :
    sample_square data ts tx ty = sample_square data ts tx' ty' := by
  unfold sample_square
  refine List.map_congr_left (fun ind _ => ?_)
  unfold ImageData.get_pixel_wrap
  rw [hx (ind % ts), hy (ind / ts)]

/-- The residue congruence `wrap_value v max ≡ v (mod max)` holds for EVERY `v`,
the broken negative-multiple inputs included (`wrap_value (-1) 1 = 1 ≡ -1`). -/
theorem wrap_value_emod_congr {v : Int} {max : Nat} (hmax : 0 < max) :
    ((wrap_value v max : Nat) : Int) % (max : Int) = v % (max : Int) := by
  unfold wrap_value
  split
  case isTrue hneg =>
    have hvn : ((-v).toNat : Int) = -v := Int.toNat_of_nonneg (by omega)
    have hlt : (-v).toNat % max < max := Nat.mod_lt _ hmax
    have hcast : ((max - (-v).toNat % max : Nat) : Int) =
        (max : Int) - (((-v).toNat % max : Nat) : Int) := by omega
    have hr : (((-v).toNat % max : Nat) : Int) = ((-v).toNat : Int) % (max : Int) :=
      Int.natCast_mod _ _
    obtain ⟨q, hq⟩ : ∃ q : Int, -v = (max : Int) * q + (-v) % (max : Int) :=
      ⟨(-v) / (max : Int), (Int.ediv_add_emod _ _).symm⟩
    have hveq : v = -((-v) % (max : Int)) + (max : Int) * (-q) := by
      rw [mul_neg]
      linarith [hq]
    rw [hcast, hr, hvn]
    calc ((max : Int) - (-v) % (max : Int)) % (max : Int)
        = (-((-v) % (max : Int)) + (max : Int) * 1) % (max : Int) := by
          congr 1
          ring
      _ = (-((-v) % (max : Int))) % (max : Int) := Int.add_mul_emod_self_left ..
      _ = (-((-v) % (max : Int)) + (max : Int) * (-q)) % (max : Int) :=
          (Int.add_mul_emod_self_left ..).symm
      _ = v % (max : Int) := by rw [← hveq]
  case isFalse hpos =>
    have hvn : (v.toNat : Int) = v := Int.toNat_of_nonneg (by omega)
    have hr : ((v.toNat % max : Nat) : Int) = (v.toNat : Int) % (max : Int) :=
      Int.natCast_mod _ _
    rw [hr, hvn, Int.emod_emod_of_dvd _ dvd_rfl]

/-- Shifting a wrapped-then-clamped base by a natural offset: as long as the
absolute read position `b + j` is nonnegative, reading at it agrees with
reading at the in-range base `wrap_value b w % w` shifted by `j`. The `% w`
folds the broken `wrap_value` output `w` back to `0`, which represents the
same wrapped column; all reads `tiles_match` performs on the overlap are at
nonnegative absolute positions, so this is the only case needed. -/
theorem wrap_shift_overlap {b : Int} {w : Nat} (hw : 0 < w) {j : Nat}
    (hbj : 0 ≤ b + (j : Int)) :
    wrap_value (b + (j : Int)) w =
      wrap_value (((wrap_value b w % w : Nat) : Int) + (j : Int)) w := by
  have h1 : ¬(b + (j : Int) < 0 ∧ (w : Int) ∣ (b + (j : Int))) := by
    rintro ⟨hlt, _⟩
    omega
  have h2 : ¬(((wrap_value b w % w : Nat) : Int) + (j : Int) < 0 ∧
      (w : Int) ∣ (((wrap_value b w % w : Nat) : Int) + (j : Int))) := by
    rintro ⟨hlt, _⟩
    omega
  apply wrap_value_congr hw h1 h2
  have hc : (((wrap_value b w % w : Nat) : Int)) % (w : Int) = b % (w : Int) := by
    rw [Int.natCast_mod, Int.emod_emod_of_dvd _ dvd_rfl]
    exact wrap_value_emod_congr hw
  conv_lhs => rw [Int.add_emod]
  conv_rhs => rw [Int.add_emod]
  rw [hc]

/-- The sample at an in-range position `(x, y)` always passes the overlap test
against the sample at the wrapped neighbor position
`(wrap_value (x+ox) w % w, wrap_value (y+oy) h % h)` under offset `(ox, oy)`:
every overlap comparison reads the same wrapped source pixel on both sides. -/
theorem tiles_match_sample_wrap (data : ImageData) (ts : Nat) (x y : Nat) (ox oy : Int)
    (hw : 0 < data.width) (hh : 0 < data.height) :
    tiles_match (sample_square data ts (x : Int) (y : Int))
      (sample_square data ts
        ((wrap_value ((x : Int) + ox) data.width % data.width : Nat) : Int)
        ((wrap_value ((y : Int) + oy) data.height % data.height : Nat) : Int))
      ox oy ts = true := by
  unfold tiles_match
  rw [List.all_eq_true]
  intro yy hyy
  rw [List.all_eq_true]
  intro xx hxx
  have hyy' := List.mem_range.mp hyy
  have hxx' := List.mem_range.mp hxx
  have hts : 0 < ts := by omega
  by_cases hskip : ((xx : Int) - ox < 0 ∨ (yy : Int) - oy < 0 ∨
      (ts : Int) ≤ (xx : Int) - ox ∨ (ts : Int) ≤ (yy : Int) - oy)
  · simp only [if_pos hskip]
  · simp only [if_neg hskip]
    push_neg at hskip
    obtain ⟨h1, h2, h3, h4⟩ := hskip
    have hox : (((xx : Int) - ox).toNat : Int) = (xx : Int) - ox := Int.toNat_of_nonneg h1
    have hoy : (((yy : Int) - oy).toNat : Int) = (yy : Int) - oy := Int.toNat_of_nonneg h2
    have hoxlt : ((xx : Int) - ox).toNat < ts := by omega
    have hoylt : ((yy : Int) - oy).toNat < ts := by omega
    have hind1 : yy * ts + xx < ts * ts := by
      calc yy * ts + xx < yy * ts + ts := by omega
        _ = (yy + 1) * ts := by ring
        _ ≤ ts * ts := Nat.mul_le_mul_right ts hyy'
    have hind2 : ((yy : Int) - oy).toNat * ts + ((xx : Int) - ox).toNat < ts * ts := by
      calc ((yy : Int) - oy).toNat * ts + ((xx : Int) - ox).toNat
          < ((yy : Int) - oy).toNat * ts + ts := by omega
        _ = (((yy : Int) - oy).toNat + 1) * ts := by ring
        _ ≤ ts * ts := Nat.mul_le_mul_right ts hoylt
    rw [sample_getD data ts _ _ hind1, sample_getD data ts _ _ hind2]
    have hm1 : (yy * ts + xx) % ts = xx := by
      rw [Nat.mul_comm yy ts, Nat.mul_add_mod, Nat.mod_eq_of_lt hxx']
    have hd1 : (yy * ts + xx) / ts = yy := by
      rw [Nat.mul_comm yy ts, Nat.mul_add_div hts, Nat.div_eq_of_lt hxx', Nat.add_zero]
    have hm2 : (((yy : Int) - oy).toNat * ts + ((xx : Int) - ox).toNat) % ts =
        ((xx : Int) - ox).toNat := by
      rw [Nat.mul_comm _ ts, Nat.mul_add_mod, Nat.mod_eq_of_lt hoxlt]
    have hd2 : (((yy : Int) - oy).toNat * ts + ((xx : Int) - ox).toNat) / ts =
        ((yy : Int) - oy).toNat := by
      rw [Nat.mul_comm _ ts, Nat.mul_add_div hts, Nat.div_eq_of_lt hoxlt, Nat.add_zero]
    rw [hm1, hd1, hm2, hd2]
    unfold ImageData.get_pixel_wrap
    have hex : wrap_value ((x : Int) + ((xx : Nat) : Int)) data.width =
        wrap_value
          (((wrap_value ((x : Int) + ox) data.width % data.width : Nat) : Int) +
            ((((xx : Int) - ox).toNat : Nat) : Int)) data.width := by
      rw [show (x : Int) + ((xx : Nat) : Int) =
          ((x : Int) + ox) + ((((xx : Int) - ox).toNat : Nat) : Int) from by
        rw [hox]; ring]
      exact wrap_shift_overlap hw (by rw [hox]; omega)
    have hey : wrap_value ((y : Int) + ((yy : Nat) : Int)) data.height =
        wrap_value
          (((wrap_value ((y : Int) + oy) data.height % data.height : Nat) : Int) +
            ((((yy : Int) - oy).toNat : Nat) : Int)) data.height := by
      rw [show (y : Int) + ((yy : Nat) : Int) =
          ((y : Int) + oy) + ((((yy : Int) - oy).toNat : Nat) : Int) from by
        rw [hoy]; ring]
      exact wrap_shift_overlap hh (by rw [hoy]; omega)
    rw [hex, hey]
    exact beq_self_eq_true _

/-- C5 (amended): for every source image and every tile size, every learned
tile id `t` and every direction `d`, there EXISTS a learned tile `t2` with
`allowed(t, d, t2)` in the constructed RuleTable — namely the sample at the
wrapped neighbor of `t`'s own occurrence (a tile need not be allowed next to
itself: see the counterexample). -/
theorem C5_every_learned_tile_has_allowed_neighbor (data : ImageData) (ts : Nat) :
    ∀ id1 < (learned data ts).1.length, ∀ d < 4,
      ∃ id2, id2 < (learned data ts).1.length ∧
        (WFCParameters.from_image_data data ts).wfc_rules.okay d id1 id2 = true := by
  intro id1 hid1 d hd
  have hmem1 : (learned data ts).1.getD id1 [] ∈ (learned data ts).1 := by
    rw [List.getD_eq_getElem _ _ hid1]
    exact List.getElem_mem _
  obtain ⟨x, y, hx, hy, hsamp⟩ := learned_sampled data ts _ hmem1
  have hw : 0 < data.width := by omega
  have hh : 0 < data.height := by omega
  have hx2 : wrap_value ((x : Int) + (OFFSETS.getD d (0, 0)).1) data.width % data.width
      < data.width := Nat.mod_lt _ hw
  have hy2 : wrap_value ((y : Int) + (OFFSETS.getD d (0, 0)).2) data.height % data.height
      < data.height := Nat.mod_lt _ hh
  have hmem2 := sample_mem_learned data ts hx2 hy2
  obtain ⟨id2, hid2, hget2⟩ := List.getElem_of_mem hmem2
  refine ⟨id2, hid2, ?_⟩
  show (build_rules (learned data ts).1 ts).okay d id1 id2 = true
  rw [okay_build_rules hd hid1 hid2]
  unfold match_dir
  rw [hsamp, show (learned data ts).1.getD id2 [] =
      sample_square data ts
        ((wrap_value ((x : Int) + (OFFSETS.getD d (0, 0)).1) data.width % data.width
          : Nat) : Int)
        ((wrap_value ((y : Int) + (OFFSETS.getD d (0, 0)).2) data.height % data.height
          : Nat) : Int) from by
    rw [List.getD_eq_getElem _ _ hid2]
    exact hget2]
  exact tiles_match_sample_wrap data ts x y
    (OFFSETS.getD d (0, 0)).1 (OFFSETS.getD d (0, 0)).2 hw hh

/-- Witness for C5's amended theorem: applied at the 2×1 image `[0, 1]` with
tile size 2 (the counterexample's own image, whose single learned tile is NOT
allowed next to itself) at tile id 0 and direction 1. -/
theorem C5_witness :
    0 < (learned imgTwoPixel 2).1.length ∧
    ∃ id2, id2 < (learned imgTwoPixel 2).1.length ∧
      (WFCParameters.from_image_data imgTwoPixel 2).wfc_rules.okay 1 0 id2 = true :=
  ⟨by decide,
    C5_every_learned_tile_has_allowed_neighbor imgTwoPixel 2 0 (by decide) 1 (by decide)⟩

/-! ### Basic facts about `upd_dir` and `update_adjacent_tiles` -/

theorem upd_dir_length (sp : List (List Nat)) (x y : Int) (w h : Nat)
    (rules : RuleTable) (direction : Nat) :
    (upd_dir sp x y w h rules direction).length = sp.length := by
  unfold upd_dir
  exact List.length_set _ _ _

theorem upd_dir_getD_sublist (sp : List (List Nat)) (x y : Int) (w h : Nat)
    (rules : RuleTable) (direction : Nat) (i : Nat) :
    ((upd_dir sp x y w h rules direction).getD i []).Sublist (sp.getD i []) := by
  unfold upd_dir
  exact getD_set_filter_sublist sp _ i _

theorem upd_dir_getD_ne (sp : List (List Nat)) (x y : Int) (w h : Nat)
    (rules : RuleTable) (direction : Nat) {i : Nat}
    (hne : i ≠ cell_index w (adj_coord x y w h direction)) :
    (upd_dir sp x y w h rules direction).getD i [] = sp.getD i [] := by
  unfold upd_dir
  exact getD_set_ne _ _ _ (fun heq => hne heq.symm)

theorem getD_map_range (count : Nat) (f : Nat → Bool) (t : Nat) :
    ((List.range count).map f).getD t false = if t < count then f t else false := by
  by_cases h : t < count
  · rw [if_pos h, List.getD_eq_getElem _ _ (by simpa using h)]
    simp
  · rw [if_neg h, List.getD_eq_getElem?_getD, List.getElem?_eq_none (by simpa using h)]
    rfl

theorem getD_oob {α : Type} (l : List (List α)) {i : Nat} (hi : l.length ≤ i) :
    l.getD i [] = [] := by
  rw [List.getD_eq_getElem?_getD, List.getElem?_eq_none (by simpa using hi)]
  rfl

/-- Membership in the updated neighbor cell of one `upd_dir` pass implies the
tile is supported by the (pre-update) source cell of the pass. -/
theorem upd_dir_allowed {sp : List (List Nat)} {x y : Int} {w h : Nat}
    {rules : RuleTable} {direction : Nat} {t : Nat}
    (ht : t ∈ (upd_dir sp x y w h rules direction).getD
      (cell_index w (adj_coord x y w h direction)) []) :
    t < rules.tile_count ∧
      ∃ t0 ∈ sp.getD (cell_index w (x.toNat, y.toNat)) [],
        rules.okay direction t0 t = true := by
  by_cases hidx : cell_index w (adj_coord x y w h direction) < sp.length
  · unfold upd_dir at ht
    rw [getD_set_self _ _ _ _ hidx] at ht
    obtain ⟨hmem, hpred⟩ := List.mem_filter.mp ht
    rw [getD_map_range] at hpred
    by_cases hcount : t < rules.tile_count
    · rw [if_pos hcount] at hpred
      obtain ⟨t0, ht0, hok⟩ := List.any_eq_true.mp hpred
      exact ⟨hcount, t0, ht0, hok⟩
    · rw [if_neg hcount] at hpred
      cases hpred
  · exfalso
    have hlen : (upd_dir sp x y w h rules direction).length ≤
        cell_index w (adj_coord x y w h direction) := by
      rw [upd_dir_length]; omega
    rw [getD_oob _ hlen] at ht
    cases ht

theorem upd_fold_length (l : List Nat) (sp : List (List Nat)) (x y : Int) (w h : Nat)
    (rules : RuleTable) :
    (l.foldl (fun sp2 direction => upd_dir sp2 x y w h rules direction) sp).length =
      sp.length := by
  induction l generalizing sp with
  | nil => rfl
  | cons d rest ih => rw [List.foldl_cons, ih, upd_dir_length]

theorem upd_fold_sublist (l : List Nat) (sp : List (List Nat)) (x y : Int) (w h : Nat)
    (rules : RuleTable) (i : Nat) :
    ((l.foldl (fun sp2 direction => upd_dir sp2 x y w h rules direction) sp).getD i
      []).Sublist (sp.getD i []) := by
  induction l generalizing sp with
  | nil => exact List.Sublist.refl _
  | cons d rest ih =>
    rw [List.foldl_cons]
    exact (ih _).trans (upd_dir_getD_sublist sp x y w h rules d i)

theorem upd_fold_getD_ne (l : List Nat) (sp : List (List Nat)) (x y : Int) (w h : Nat)
    (rules : RuleTable) {i : Nat}
    (hni : ∀ d ∈ l, i ≠ cell_index w (adj_coord x y w h d)) :
    (l.foldl (fun sp2 direction => upd_dir sp2 x y w h rules direction) sp).getD i [] =
      sp.getD i [] := by
  induction l generalizing sp with
  | nil => rfl
  | cons d rest ih =>
    rw [List.foldl_cons,
      ih _ (fun d' hm => hni d' (List.mem_cons_of_mem d hm)),
      upd_dir_getD_ne sp x y w h rules d (hni d (List.mem_cons_self d rest))]

/-- After the whole fold, members of the neighbor in a processed direction are
supported by the source cell, provided no direction's neighbor aliases the
source cell. -/
theorem upd_fold_allowed (l : List Nat) (sp : List (List Nat)) (x y : Int) (w h : Nat)
    (rules : RuleTable)
    (hsrc : ∀ d ∈ l, cell_index w (x.toNat, y.toNat) ≠ cell_index w (adj_coord x y w h d))
    {d : Nat} (hdl : d ∈ l) {t : Nat}
    (ht : t ∈ (l.foldl (fun sp2 direction => upd_dir sp2 x y w h rules direction) sp).getD
      (cell_index w (adj_coord x y w h d)) []) :
    t < rules.tile_count ∧
      ∃ t0 ∈ sp.getD (cell_index w (x.toNat, y.toNat)) [],
        rules.okay d t0 t = true := by
  induction l generalizing sp with
  | nil => cases hdl
  | cons d0 rest ih =>
    rw [List.foldl_cons] at ht
    by_cases hdr : d ∈ rest
    · have hres := ih (upd_dir sp x y w h rules d0)
        (fun d' hm => hsrc d' (List.mem_cons_of_mem d0 hm)) hdr ht
      rwa [upd_dir_getD_ne sp x y w h rules d0
        (hsrc d0 (List.mem_cons_self d0 rest))] at hres
    · have hd0 : d = d0 := by
        rcases List.mem_cons.mp hdl with h | h
        · exact h
        · exact absurd h hdr
      subst hd0
      have hsub := upd_fold_sublist rest (upd_dir sp x y w h rules d) x y w h rules
        (cell_index w (adj_coord x y w h d))
      exact upd_dir_allowed (hsub.subset ht)

theorem update_adjacent_tiles_length (sp : List (List Nat)) (x y : Int) (w h : Nat)
    (rules : RuleTable) :
    (update_adjacent_tiles sp x y w h rules).length = sp.length :=
  upd_fold_length _ sp x y w h rules

theorem update_adjacent_tiles_sublist (sp : List (List Nat)) (x y : Int) (w h : Nat)
    (rules : RuleTable) (i : Nat) :
    ((update_adjacent_tiles sp x y w h rules).getD i []).Sublist (sp.getD i []) :=
  upd_fold_sublist _ sp x y w h rules i

/-! ### Unfolding equations for `propagate` -/

theorem propagate_zero (sp : List (List Nat)) (params : WFCParameters) (w h : Nat)
    (queue : List Nat) (stack : List (Int × Int)) :
    propagate 0 sp params w h queue stack = none := rfl

theorem propagate_succ_nil (fuel : Nat) (sp : List (List Nat)) (params : WFCParameters)
    (w h : Nat) (queue : List Nat) :
    propagate (fuel + 1) sp params w h queue [] = some (false, sp, queue) := rfl

theorem propagate_succ_cons (fuel : Nat) (sp : List (List Nat)) (params : WFCParameters)
    (w h : Nat) (queue : List Nat) (posx posy : Int) (rest : List (Int × Int)) :
    propagate (fuel + 1) sp params w h queue ((posx, posy) :: rest) =
      (match propagate_checks (update_adjacent_tiles sp posx posy w h params.wfc_rules) w h
          posx posy
          ((List.range OFFSETS.length).map (fun direction =>
            (sp.getD (cell_index w (adj_coord posx posy w h direction)) []).length))
          queue rest [0, 1, 2, 3] with
        | .error q => some (true, update_adjacent_tiles sp posx posy w h params.wfc_rules, q)
        | .ok (q, stack2) =>
            propagate fuel (update_adjacent_tiles sp posx posy w h params.wfc_rules)
              params w h q stack2) := rfl

/-- Along any `propagate` run, every cell's candidate set only shrinks
(sublist of its input value). -/
theorem propagate_sublist {fuel : Nat} {sp : List (List Nat)} {params : WFCParameters}
    {w h : Nat} {queue : List Nat} {stack : List (Int × Int)}
    {res : Bool} {sp' : List (List Nat)} {q' : List Nat}
    (hp : propagate fuel sp params w h queue stack = some (res, sp', q')) (i : Nat) :
    (sp'.getD i []).Sublist (sp.getD i []) := by
  induction fuel generalizing sp queue stack with
  | zero => cases hp
  | succ fuel ih =>
    rcases stack with _ | ⟨⟨posx, posy⟩, rest⟩
    · rw [propagate_succ_nil] at hp
      simp only [Option.some.injEq, Prod.mk.injEq] at hp
      rw [← hp.2.1]
    · rw [propagate_succ_cons] at hp
      split at hp
      · simp only [Option.some.injEq, Prod.mk.injEq] at hp
        rw [← hp.2.1]
        exact update_adjacent_tiles_sublist sp posx posy w h params.wfc_rules i
      · exact (ih hp).trans (update_adjacent_tiles_sublist sp posx posy w h params.wfc_rules i)

/-! ### The weighted random choice stays inside the candidate list -/

theorem generate_weighted_walk_lt {rand : Nat} :
    ∀ (weights : List Nat) (i c j : Nat),
      generate_weighted_walk rand weights i c = some j → j < i + weights.length := by
  intro weights
  induction weights with
  | nil => intro i c j hwalk; cases hwalk
  | cons v rest ih =>
    intro i c j hwalk
    unfold generate_weighted_walk at hwalk
    by_cases hlt : rand < c + v
    · rw [if_pos hlt] at hwalk
      injection hwalk with hj
      simp [← hj]
    · rw [if_neg hlt] at hwalk
      have := ih (i + 1) (c + v) j hwalk
      simp only [List.length_cons]
      omega

theorem generate_weighted_lt {r : Nat} {weights : List Nat} (hne : weights ≠ []) :
    generate_weighted r weights < weights.length := by
  unfold generate_weighted
  rw [if_neg (by simpa using hne)]
  have hpos : 0 < weights.length := List.length_pos.mpr hne
  rcases hwalk : generate_weighted_walk (r % weights.foldl (· + ·) 0) weights 0 0 with _ | j
  · simp only [hwalk, Option.getD_none]
    omega
  · simp only [hwalk, Option.getD_some]
    have := generate_weighted_walk_lt weights 0 0 j hwalk
    omega

theorem random_element_weighted_mem {vec : List Nat} {r : Nat} {weights : List Nat}
    (hv : vec ≠ []) (hlen : weights.length = vec.length) :
    (random_element vec r (some weights)).getD 0 ∈ vec := by
  unfold random_element
  rw [if_neg (by simpa using hv)]
  simp only [Option.getD_some]
  have hw : weights ≠ [] := by
    intro hnil
    rw [hnil] at hlen
    exact hv (List.length_eq_zero.mp hlen.symm)
  have hlt : generate_weighted r weights < vec.length := by
    rw [← hlen]
    exact generate_weighted_lt hw
  rw [List.getD_eq_getElem _ _ hlt]
  exact List.getElem_mem _

theorem set_singleton_subset {sp : List (List Nat)} {idx chosen : Nat}
    (hc : chosen ∈ sp.getD idx []) (i : Nat) :
    (sp.set idx [chosen]).getD i [] ⊆ sp.getD i [] := by
  by_cases hii : idx = i
  · subst hii
    by_cases hlen : idx < sp.length
    · rw [getD_set_self _ _ _ _ hlen]
      intro a ha
      rw [List.mem_singleton.mp ha]
      exact hc
    · rw [List.set_eq_of_length_le (le_of_not_lt hlen)]
      exact fun a ha => ha
  · rw [getD_set_ne _ _ _ hii]
    exact fun a ha => ha

/-- Unfolding equation of `step` when the popped cell is already collapsed. -/
theorem step_unfold_stale (params : WFCParameters) (w h : Nat) (st : WFCState)
    (r fuel : Nat)
    (hcase : (st.superpositions.getD (st.tile_queue.head?.getD 0) []).length ≤ 1) :
    params.step w h st r fuel =
      some (Except.ok (),
        { superpositions := st.superpositions, tile_queue := st.tile_queue.tail }) := by
  unfold WFCParameters.step
  rw [if_pos hcase]

/-- Unfolding equation of `step` on an undetermined popped cell: collapse to
the weighted random choice, then propagate. -/
theorem step_unfold_main (params : WFCParameters) (w h : Nat) (st : WFCState)
    (r fuel : Nat)
    (hcase : ¬(st.superpositions.getD (st.tile_queue.head?.getD 0) []).length ≤ 1) :
    params.step w h st r fuel =
      (match propagate fuel
          (st.superpositions.set (st.tile_queue.head?.getD 0)
            [(random_element (st.superpositions.getD (st.tile_queue.head?.getD 0) []) r
              (some ((st.superpositions.getD (st.tile_queue.head?.getD 0) []).map
                (fun tile => params.wfc_frequency.getD tile 0)))).getD 0])
          params w h st.tile_queue.tail
          [(((st.tile_queue.head?.getD 0 % w : Nat) : Int),
            ((st.tile_queue.head?.getD 0 / w : Nat) : Int))] with
        | none => none
        | some (failed, sp2, q2) =>
            if failed then some (Except.error "WFC Failed",
              { superpositions := sp2, tile_queue := q2 })
            else some (Except.ok (), { superpositions := sp2, tile_queue := q2 })) := by
  unfold WFCParameters.step
  rw [if_neg hcase]

/-- C8: between two consecutive `step` calls on the same field (Ok or
contradiction alike), no cell's candidate set grows: each post-step candidate
set is a subset of the pre-step one. -/
theorem C8_monotone_shrink (params : WFCParameters) (w h : Nat) (st : WFCState)
    (r fuel : Nat) {res : Except String Unit} {st' : WFCState}
    (hstep : params.step w h st r fuel = some (res, st')) :
    ∀ i, st'.superpositions.getD i [] ⊆ st.superpositions.getD i [] := by
  intro i
  unfold WFCParameters.step at hstep
  by_cases hcase : (st.superpositions.getD (st.tile_queue.head?.getD 0) []).length ≤ 1
  · rw [if_pos hcase] at hstep
    simp only [Option.some.injEq, Prod.mk.injEq] at hstep
    rw [← hstep.2]
    exact fun a ha => ha
  · rw [← WFCParameters.step, step_unfold_main params w h st r fuel hcase] at hstep
    have hvecne : st.superpositions.getD (st.tile_queue.head?.getD 0) [] ≠ [] := by
      intro hnil
      rw [hnil] at hcase
      exact hcase (by simp)
    have hchosen := @random_element_weighted_mem
      (st.superpositions.getD (st.tile_queue.head?.getD 0) []) r
      ((st.superpositions.getD (st.tile_queue.head?.getD 0) []).map
        (fun tile => params.wfc_frequency.getD tile 0))
      hvecne (List.length_map _ _)
    split at hstep
    · cases hstep
    · rename_i failed sp2 q2 heq
      have hsub1 := (propagate_sublist heq i).subset
      have hsub2 := set_singleton_subset hchosen i
      split at hstep <;>
        (simp only [Option.some.injEq, Prod.mk.injEq] at hstep;
         rw [← hstep.2];
         exact fun a ha => hsub2 (hsub1 ha))

/-! ### Coordinate facts -/

theorem offsets_bounds (d : Nat) :
    -1 ≤ (OFFSETS.getD d (0, 0)).1 ∧ (OFFSETS.getD d (0, 0)).1 ≤ 1 ∧
    -1 ≤ (OFFSETS.getD d (0, 0)).2 ∧ (OFFSETS.getD d (0, 0)).2 ≤ 1 := by
  match d with
  | 0 => decide
  | 1 => decide
  | 2 => decide
  | 3 => decide
  | (n + 4) =>
    have hdef : OFFSETS.getD (n + 4) (0, 0) = (0, 0) := by
      rw [List.getD_eq_getElem?_getD,
        List.getElem?_eq_none (by rw [OFFSETS_length]; omega)]
      rfl
    rw [hdef]
    exact ⟨by norm_num, by norm_num, by norm_num, by norm_num⟩

theorem adj_coord_lt {w h : Nat} (hw : 2 ≤ w) (hh : 2 ≤ h) {a b : Nat}
    (ha : a < w) (hb : b < h) (d : Nat) :
    (adj_coord (a : Int) (b : Int) w h d).1 < w ∧
      (adj_coord (a : Int) (b : Int) w h d).2 < h := by
  obtain ⟨h1, h2, h3, h4⟩ := offsets_bounds d
  exact ⟨wrap_value_lt_of_ge_neg_one hw (by omega),
    wrap_value_lt_of_ge_neg_one hh (by omega)⟩

theorem cell_index_lt {w h : Nat} {p : Nat × Nat} (h1 : p.1 < w) (h2 : p.2 < h) :
    cell_index w p < w * h := by
  unfold cell_index
  calc p.1 + p.2 * w < w + p.2 * w := by omega
    _ = (p.2 + 1) * w := by ring
    _ ≤ h * w := Nat.mul_le_mul_right w h2
    _ = w * h := Nat.mul_comm h w

theorem cell_index_inj {w : Nat} {p q : Nat × Nat} (hp : p.1 < w) (hq : q.1 < w)
    (heq : cell_index w p = cell_index w q) : p = q := by
  unfold cell_index at heq
  have hw : 0 < w := by omega
  have h1 : p.1 = q.1 := by
    have hm := congrArg (· % w) heq
    simpa [Nat.add_mul_mod_self_right, Nat.mod_eq_of_lt hp, Nat.mod_eq_of_lt hq] using hm
  have h2 : p.2 = q.2 := Nat.eq_of_mul_eq_mul_right hw (by omega)
  exact Prod.ext h1 h2

/-! ### Facts about the check loop of `propagate` -/

/-- A successful check pass saw no empty neighbor. -/
theorem propagate_checks_ok_nonempty {sp : List (List Nat)} {w h : Nat} {posx posy : Int}
    {prev queue : List Nat} {stack : List (Int × Int)} {dirs : List Nat}
    {q2 : List Nat} {stack2 : List (Int × Int)}
    (hok : propagate_checks sp w h posx posy prev queue stack dirs = .ok (q2, stack2)) :
    ∀ d ∈ dirs, sp.getD (cell_index w (adj_coord posx posy w h d)) [] ≠ [] := by
  induction dirs generalizing queue stack with
  | nil => intro d hd; cases hd
  | cons d0 rest ih =>
    intro d hd
    unfold propagate_checks at hok
    by_cases he : (sp.getD (cell_index w (adj_coord posx posy w h d0)) []).isEmpty = true
    · rw [if_pos he] at hok
      cases hok
    · rw [if_neg he] at hok
      rcases List.mem_cons.mp hd with hh | hh
      · subst hh
        intro hnil
        exact he (by rw [hnil]; rfl)
      · by_cases hlen : (sp.getD (cell_index w (adj_coord posx posy w h d0)) []).length =
            prev.getD d0 0
        · rw [if_pos hlen] at hok
          by_cases hgt : 1 < (sp.getD (cell_index w (adj_coord posx posy w h d0)) []).length
          · rw [if_pos hgt] at hok
            exact ih hok d hh
          · rw [if_neg hgt] at hok
            exact ih hok d hh
        · rw [if_neg hlen] at hok
          exact ih hok d hh

/-- A failed check pass found an empty neighbor. -/
theorem propagate_checks_error_empty {sp : List (List Nat)} {w h : Nat} {posx posy : Int}
    {prev queue : List Nat} {stack : List (Int × Int)} {dirs : List Nat} {qerr : List Nat}
    (herr : propagate_checks sp w h posx posy prev queue stack dirs = .error qerr) :
    ∃ d ∈ dirs, sp.getD (cell_index w (adj_coord posx posy w h d)) [] = [] := by
  induction dirs generalizing queue stack with
  | nil => cases herr
  | cons d0 rest ih =>
    unfold propagate_checks at herr
    by_cases he : (sp.getD (cell_index w (adj_coord posx posy w h d0)) []).isEmpty = true
    · refine ⟨d0, List.mem_cons_self d0 rest, ?_⟩
      cases hsp : sp.getD (cell_index w (adj_coord posx posy w h d0)) [] with
      | nil => rfl
      | cons a l => rw [hsp] at he; cases he
    · rw [if_neg he] at herr
      have hrec : ∃ d ∈ rest,
          sp.getD (cell_index w (adj_coord posx posy w h d)) [] = [] := by
        by_cases hlen : (sp.getD (cell_index w (adj_coord posx posy w h d0)) []).length =
            prev.getD d0 0
        · rw [if_pos hlen] at herr
          by_cases hgt : 1 < (sp.getD (cell_index w (adj_coord posx posy w h d0)) []).length
          · rw [if_pos hgt] at herr
            exact ih herr
          · rw [if_neg hgt] at herr
            exact ih herr
        · rw [if_neg hlen] at herr
          exact ih herr
      obtain ⟨d, hdm, hdd⟩ := hrec
      exact ⟨d, List.mem_cons_of_mem d0 hdm, hdd⟩

/-- Stack bookkeeping of a successful check pass: old entries survive, new
entries are neighbor coordinates of processed directions, and every direction
whose neighbor size changed got its coordinate pushed. -/
theorem propagate_checks_ok_stack {sp : List (List Nat)} {w h : Nat} {posx posy : Int}
    {prev queue : List Nat} {stack : List (Int × Int)} {dirs : List Nat}
    {q2 : List Nat} {stack2 : List (Int × Int)}
    (hok : propagate_checks sp w h posx posy prev queue stack dirs = .ok (q2, stack2)) :
    (∀ z ∈ stack, z ∈ stack2) ∧
    (∀ z ∈ stack2, z ∈ stack ∨ ∃ d ∈ dirs,
      z = (((adj_coord posx posy w h d).1 : Int), ((adj_coord posx posy w h d).2 : Int))) ∧
    (∀ d ∈ dirs,
      (sp.getD (cell_index w (adj_coord posx posy w h d)) []).length ≠ prev.getD d 0 →
      (((adj_coord posx posy w h d).1 : Int), ((adj_coord posx posy w h d).2 : Int)) ∈
        stack2) := by
  induction dirs generalizing queue stack with
  | nil =>
    unfold propagate_checks at hok
    injection hok with hok
    injection hok with h1 h2
    subst h2
    exact ⟨fun z hz => hz, fun z hz => Or.inl hz, fun d hd => absurd hd (List.not_mem_nil d)⟩
  | cons d0 rest ih =>
    unfold propagate_checks at hok
    by_cases he : (sp.getD (cell_index w (adj_coord posx posy w h d0)) []).isEmpty = true
    · rw [if_pos he] at hok
      cases hok
    · rw [if_neg he] at hok
      by_cases hlen : (sp.getD (cell_index w (adj_coord posx posy w h d0)) []).length =
          prev.getD d0 0
      · have hok2 :
            propagate_checks sp w h posx posy prev
              (if 1 < (sp.getD (cell_index w (adj_coord posx posy w h d0)) []).length
               then queue ++ [cell_index w (adj_coord posx posy w h d0)] else queue)
              stack rest = .ok (q2, stack2) := by
          rw [if_pos hlen] at hok
          by_cases hgt : 1 < (sp.getD (cell_index w (adj_coord posx posy w h d0)) []).length
          · rw [if_pos hgt] at hok
            rw [if_pos hgt]
            exact hok
          · rw [if_neg hgt] at hok
            rw [if_neg hgt]
            exact hok
        obtain ⟨hA, hB, hC⟩ := ih hok2
        refine ⟨hA, ?_, ?_⟩
        · intro z hz
          rcases hB z hz with hz1 | ⟨d, hdm, hde⟩
          · exact Or.inl hz1
          · exact Or.inr ⟨d, List.mem_cons_of_mem d0 hdm, hde⟩
        · intro d hd hchanged
          rcases List.mem_cons.mp hd with hh | hh
          · exact absurd hlen (hh ▸ hchanged)
          · exact hC d hh hchanged
      · rw [if_neg hlen] at hok
        obtain ⟨hA, hB, hC⟩ := ih hok
        refine ⟨fun z hz => hA z (List.mem_cons_of_mem _ hz), ?_, ?_⟩
        · intro z hz
          rcases hB z hz with hz1 | ⟨d, hdm, hde⟩
          · rcases List.mem_cons.mp hz1 with hz2 | hz2
            · exact Or.inr ⟨d0, List.mem_cons_self d0 rest, hz2⟩
            · exact Or.inl hz2
          · exact Or.inr ⟨d, List.mem_cons_of_mem d0 hdm, hde⟩
        · intro d hd hchanged
          rcases List.mem_cons.mp hd with hh | hh
          · subst hh
            exact hA _ (List.mem_cons_self _ _)
          · exact hC d hh hchanged

/-! ### Contradiction detection in `propagate` -/

theorem stack_wf_cons {w h : Nat} {z : Int × Int} {rest : List (Int × Int)}
    (hst : stack_wf w h (z :: rest)) : stack_wf w h rest :=
  fun z' hz' => hst z' (List.mem_cons_of_mem z hz')

/-- After one pop is processed with a successful check pass, the resulting
stack is still well-formed. -/
theorem stack2_wf {w h : Nat} (hw : 2 ≤ w) (hh : 2 ≤ h) {sp : List (List Nat)}
    {posx posy : Int} {prev queue : List Nat} {rest : List (Int × Int)}
    {dirs : List Nat} {q2 : List Nat} {stack2 : List (Int × Int)}
    {a b : Nat} (ha : a < w) (hb : b < h) (hxa : posx = (a : Int)) (hyb : posy = (b : Int))
    (hrest : stack_wf w h rest)
    (hok : propagate_checks sp w h posx posy prev queue rest dirs = .ok (q2, stack2)) :
    stack_wf w h stack2 := by
  obtain ⟨-, hB, -⟩ := propagate_checks_ok_stack hok
  intro z hz
  rcases hB z hz with hz1 | ⟨d, -, hde⟩
  · exact hrest z hz1
  · subst hxa hyb
    obtain ⟨h1, h2⟩ := adj_coord_lt hw hh ha hb d
    exact ⟨(adj_coord (a : Int) (b : Int) w h d).1,
      (adj_coord (a : Int) (b : Int) w h d).2, h1, h2, hde⟩

/-- If a `propagate` run returns without contradiction, every cell is still
nonempty (given all cells were nonempty on entry). -/
theorem propagate_ok_nonempty {fuel : Nat} {sp : List (List Nat)} {params : WFCParameters}
    {w h : Nat} {queue : List Nat} {stack : List (Int × Int)}
    {sp' : List (List Nat)} {q' : List Nat}
    (hw : 2 ≤ w) (hh : 2 ≤ h)
    (hstack : stack_wf w h stack) (hne : all_nonempty sp (w * h))
    (hp : propagate fuel sp params w h queue stack = some (false, sp', q')) :
    all_nonempty sp' (w * h) := by
  induction fuel generalizing sp queue stack with
  | zero => cases hp
  | succ fuel ih =>
    rcases stack with _ | ⟨⟨posx, posy⟩, rest⟩
    · rw [propagate_succ_nil] at hp
      simp only [Option.some.injEq, Prod.mk.injEq] at hp
      rw [← hp.2.1]
      exact hne
    · obtain ⟨a, b, ha, hb, hab⟩ := hstack (posx, posy) (List.mem_cons_self _ _)
      injection hab with hxa hyb
      rw [propagate_succ_cons] at hp
      split at hp
      · simp only [Option.some.injEq, Prod.mk.injEq] at hp
        exact absurd hp.1.symm (by simp)
      · rename_i q stack2 heq
        refine ih ?_ ?_ hp
        · exact stack2_wf hw hh ha hb hxa hyb (stack_wf_cons hstack) heq
        · intro i hi
          by_cases hmem : ∃ d ∈ [0, 1, 2, 3],
              i = cell_index w (adj_coord posx posy w h d)
          · obtain ⟨d, hdm, hdi⟩ := hmem
            rw [hdi]
            exact propagate_checks_ok_nonempty heq d hdm
          · push_neg at hmem
            rw [update_adjacent_tiles,
              upd_fold_getD_ne (List.range OFFSETS.length) sp posx posy w h
                params.wfc_rules
                (fun d hd => hmem d (by
                  have := List.mem_range.mp hd
                  rw [OFFSETS_length] at this
                  interval_cases d <;> simp))]
            exact hne i hi

/-- If a `propagate` run reports a contradiction, some in-range cell's set is
empty in the returned field. -/
theorem propagate_err_empty {fuel : Nat} {sp : List (List Nat)} {params : WFCParameters}
    {w h : Nat} {queue : List Nat} {stack : List (Int × Int)}
    {sp' : List (List Nat)} {q' : List Nat}
    (hw : 2 ≤ w) (hh : 2 ≤ h) (hstack : stack_wf w h stack)
    (hp : propagate fuel sp params w h queue stack = some (true, sp', q')) :
    ∃ i < w * h, sp'.getD i [] = [] := by
  induction fuel generalizing sp queue stack with
  | zero => cases hp
  | succ fuel ih =>
    rcases stack with _ | ⟨⟨posx, posy⟩, rest⟩
    · rw [propagate_succ_nil] at hp
      simp only [Option.some.injEq, Prod.mk.injEq] at hp
      exact absurd hp.1 (by simp)
    · obtain ⟨a, b, ha, hb, hab⟩ := hstack (posx, posy) (List.mem_cons_self _ _)
      injection hab with hxa hyb
      rw [propagate_succ_cons] at hp
      split at hp
      · rename_i qe herr
        simp only [Option.some.injEq, Prod.mk.injEq] at hp
        obtain ⟨d, hdm, hde⟩ := propagate_checks_error_empty herr
        refine ⟨cell_index w (adj_coord posx posy w h d), ?_, ?_⟩
        · subst hxa hyb
          obtain ⟨h1, h2⟩ := adj_coord_lt hw hh ha hb d
          exact cell_index_lt h1 h2
        · rw [← hp.2.1]
          exact hde
      · rename_i q stack2 heq
        exact ih (stack2_wf hw hh ha hb hxa hyb (stack_wf_cons hstack) heq) hp

/-- C6: given a well-formed field with no empty cell, `step` returns the
contradiction error if and only if some cell's candidate set is empty
afterwards; detection aborts propagation at once, leaving the partially
updated field in `st'`. -/
theorem C6_error_iff_empty (params : WFCParameters) (w h : Nat) (st : WFCState)
    (r fuel : Nat) (hw : 2 ≤ w) (hh : 2 ≤ h)
    (hlen : st.superpositions.length = w * h)
    (hq : queue_wf w h st.tile_queue)
    (hne : all_nonempty st.superpositions (w * h))
    {res : Except String Unit} {st' : WFCState}
    (hstep : params.step w h st r fuel = some (res, st')) :
    (res = Except.error "WFC Failed" ↔ ∃ i < w * h, st'.superpositions.getD i [] = []) := by
  have hidx : st.tile_queue.head?.getD 0 < w * h := by
    rcases hqc : st.tile_queue with _ | ⟨q0, qrest⟩
    · simp only [List.head?_nil, Option.getD_none]
      have : 0 < w := by omega
      have : 0 < h := by omega
      exact Nat.mul_pos (by omega) (by omega)
    · simp only [List.head?_cons, Option.getD_some]
      exact hq q0 (by rw [hqc]; exact List.mem_cons_self _ _)
  by_cases hcase : (st.superpositions.getD (st.tile_queue.head?.getD 0) []).length ≤ 1
  · rw [step_unfold_stale params w h st r fuel hcase] at hstep
    simp only [Option.some.injEq, Prod.mk.injEq] at hstep
    obtain ⟨hres, hst⟩ := hstep
    constructor
    · intro habs
      rw [habs] at hres
      cases hres
    · intro ⟨i, hi, hempty⟩
      rw [← hst] at hempty
      exact absurd hempty (hne i hi)
  · rw [step_unfold_main params w h st r fuel hcase] at hstep
    have hvecne : st.superpositions.getD (st.tile_queue.head?.getD 0) [] ≠ [] := by
      intro hnil
      rw [hnil] at hcase
      exact hcase (by simp)
    have hchosen := @random_element_weighted_mem
      (st.superpositions.getD (st.tile_queue.head?.getD 0) []) r
      ((st.superpositions.getD (st.tile_queue.head?.getD 0) []).map
        (fun tile => params.wfc_frequency.getD tile 0))
      hvecne (List.length_map _ _)
    have hne1 : all_nonempty (st.superpositions.set (st.tile_queue.head?.getD 0)
        [(random_element (st.superpositions.getD (st.tile_queue.head?.getD 0) []) r
          (some ((st.superpositions.getD (st.tile_queue.head?.getD 0) []).map
            (fun tile => params.wfc_frequency.getD tile 0)))).getD 0]) (w * h) := by
      intro i hi
      by_cases hii : st.tile_queue.head?.getD 0 = i
      · subst hii
        rw [getD_set_self _ _ _ _ (by omega)]
        simp
      · rw [getD_set_ne _ _ _ hii]
        exact hne i hi
    have hstackwf : stack_wf w h
        [(((st.tile_queue.head?.getD 0 % w : Nat) : Int),
          ((st.tile_queue.head?.getD 0 / w : Nat) : Int))] := by
      intro z hz
      rw [List.mem_singleton.mp hz]
      refine ⟨st.tile_queue.head?.getD 0 % w, st.tile_queue.head?.getD 0 / w, ?_, ?_, rfl⟩
      · exact Nat.mod_lt _ (by omega)
      · exact Nat.div_lt_of_lt_mul hidx
    split at hstep
    · cases hstep
    · rename_i failed sp2 q2 heq
      by_cases hfail : failed = true
      · rw [if_pos hfail] at hstep
        simp only [Option.some.injEq, Prod.mk.injEq] at hstep
        obtain ⟨hres, hst⟩ := hstep
        rw [← hres, ← hst]
        simp only [true_iff]
        exact propagate_err_empty hw hh hstackwf (hfail ▸ heq)
      · rw [if_neg hfail] at hstep
        simp only [Option.some.injEq, Prod.mk.injEq] at hstep
        obtain ⟨hres, hst⟩ := hstep
        rw [← hres, ← hst]
        constructor
        · intro habs
          cases habs
        · intro ⟨i, hi, hempty⟩
          have hf : failed = false := by
            revert hfail
            cases failed <;> simp
          rw [hf] at heq
          have hok := propagate_ok_nonempty hw hh hstackwf hne1 heq
          exact absurd hempty (hok i hi)

/-- Witness for C6: a full collapse-and-propagate step on the stripes field
returns Ok, and indeed no cell is empty afterwards. -/
theorem C6_witness :
    (2 ≤ 2 ∧ (WFCState.new 2 2 [0, 1] [2, 2] 0).superpositions.length = 2 * 2 ∧
      queue_wf 2 2 (WFCState.new 2 2 [0, 1] [2, 2] 0).tile_queue ∧
      all_nonempty (WFCState.new 2 2 [0, 1] [2, 2] 0).superpositions (2 * 2)) ∧
    ((Except.ok () : Except String Unit) = Except.error "WFC Failed" ↔
      ∃ i < 2 * 2,
        (⟨[[0], [0, 1], [0, 1], [0, 1]], [2, 1, 2, 1]⟩ :
          WFCState).superpositions.getD i [] = []) :=
  ⟨⟨by decide, by decide, by decide, by decide⟩,
    C6_error_iff_empty paramsStripes 2 2 (WFCState.new 2 2 [0, 1] [2, 2] 0) 0 2
      (by decide) (by decide) (by decide) (by decide) (by decide) rfl⟩

/-- Witness for C8: the same concrete step only shrinks cell 1's candidates. -/
theorem C8_witness :
    paramsStripes.step 2 2 (WFCState.new 2 2 [0, 1] [2, 2] 0) 0 2 =
      some (Except.ok (), ⟨[[0], [0, 1], [0, 1], [0, 1]], [2, 1, 2, 1]⟩) ∧
    (⟨[[0], [0, 1], [0, 1], [0, 1]], [2, 1, 2, 1]⟩ :
        WFCState).superpositions.getD 1 [] ⊆
      (WFCState.new 2 2 [0, 1] [2, 2] 0).superpositions.getD 1 [] :=
  ⟨rfl, C8_monotone_shrink paramsStripes 2 2 (WFCState.new 2 2 [0, 1] [2, 2] 0) 0 2 rfl 1⟩

/-- C10: when `step` is called with an empty entropy queue, the
`unwrap_or(TileIndex(0.0, 0))` default refers to cell 0: if cell 0 is already
collapsed the step returns Ok leaving the state unchanged, and if cell 0 is
still undetermined a successful step actually collapses cell 0 to a single
candidate (it is not a no-op). -/
theorem C10_empty_queue_default_cell_zero (params : WFCParameters) (w h : Nat)
    (st : WFCState) (r fuel : Nat) (hw : 2 ≤ w) (hh : 2 ≤ h)
    (hlen : st.superpositions.length = w * h)
    (hne : all_nonempty st.superpositions (w * h))
    (hq : st.tile_queue = []) {st' : WFCState}
    (hstep : params.step w h st r fuel = some (Except.ok (), st')) :
    (if (st.superpositions.getD 0 []).length ≤ 1 then st' = st
     else (st'.superpositions.getD 0 []).length = 1) := by
  have hhead : st.tile_queue.head?.getD 0 = 0 := by rw [hq]; rfl
  have hwh : 0 < w * h := Nat.mul_pos (by omega) (by omega)
  by_cases hcase : (st.superpositions.getD 0 []).length ≤ 1
  · rw [if_pos hcase]
    rw [step_unfold_stale params w h st r fuel (by rw [hhead]; exact hcase)] at hstep
    simp only [Option.some.injEq, Prod.mk.injEq] at hstep
    obtain ⟨-, hst⟩ := hstep
    rw [← hst, hq]
    rcases st with ⟨sp0, q0⟩
    simp only at hq
    rw [hq]
    rfl
  · rw [if_neg hcase]
    rw [step_unfold_main params w h st r fuel (by rw [hhead]; exact hcase), hhead] at hstep
    have hvecne : st.superpositions.getD 0 [] ≠ [] := by
      intro hnil
      rw [hnil] at hcase
      exact hcase (by simp)
    have hchosen := @random_element_weighted_mem
      (st.superpositions.getD 0 []) r
      ((st.superpositions.getD 0 []).map
        (fun tile => params.wfc_frequency.getD tile 0))
      hvecne (List.length_map _ _)
    have hne1 : all_nonempty (st.superpositions.set 0
        [(random_element (st.superpositions.getD 0 []) r
          (some ((st.superpositions.getD 0 []).map
            (fun tile => params.wfc_frequency.getD tile 0)))).getD 0]) (w * h) := by
      intro i hi
      by_cases hii : 0 = i
      · rw [← hii, getD_set_self _ _ _ _ (by omega)]
        simp
      · rw [getD_set_ne _ _ _ hii]
        exact hne i hi
    have hstackwf : stack_wf w h [(((0 % w : Nat) : Int), ((0 / w : Nat) : Int))] := by
      intro z hz
      rw [List.mem_singleton.mp hz]
      exact ⟨0 % w, 0 / w, Nat.mod_lt _ (by omega), by rw [Nat.zero_div]; omega, rfl⟩
    split at hstep
    · cases hstep
    · rename_i failed sp2 q2 heq
      by_cases hfail : failed = true
      · rw [if_pos hfail] at hstep
        simp only [Option.some.injEq, Prod.mk.injEq] at hstep
        cases hstep.1
      · rw [if_neg hfail] at hstep
        simp only [Option.some.injEq, Prod.mk.injEq] at hstep
        obtain ⟨-, hst⟩ := hstep
        have hf : failed = false := by
          revert hfail
          cases failed <;> simp
        rw [hf] at heq
        have hsub := propagate_sublist heq 0
        have hnonempty := propagate_ok_nonempty hw hh hstackwf hne1 heq 0 hwh
        rw [← hst]
        have hset : (st.superpositions.set 0
            [(random_element (st.superpositions.getD 0 []) r
              (some ((st.superpositions.getD 0 []).map
                (fun tile => params.wfc_frequency.getD tile 0)))).getD 0]).getD 0 [] =
            [(random_element (st.superpositions.getD 0 []) r
              (some ((st.superpositions.getD 0 []).map
                (fun tile => params.wfc_frequency.getD tile 0)))).getD 0] :=
          getD_set_self _ _ _ _ (by omega)
    
        rw [hset] at hsub
        have hle := hsub.length_le
        simp only [List.length_singleton] at hle
        have hpos : 0 < (sp2.getD 0 []).length := List.length_pos.mpr hnonempty
        show (sp2.getD 0 []).length = 1
        omega

/-- Witness for C10: with an empty queue over the stripes parameters, the step
collapses cell 0. -/
theorem C10_witness :
    ((2 ≤ 2) ∧ all_nonempty (List.replicate 4 [0, 1]) (2 * 2) ∧
      paramsStripes.step 2 2 ⟨List.replicate 4 [0, 1], []⟩ 0 2 =
        some (Except.ok (), ⟨[[0], [0, 1], [0, 1], [0, 1]], [2, 1, 2, 1]⟩)) ∧
    (if ((List.replicate 4 [0, 1] : List (List Nat)).getD 0 []).length ≤ 1 then
      (⟨[[0], [0, 1], [0, 1], [0, 1]], [2, 1, 2, 1]⟩ : WFCState) =
        ⟨List.replicate 4 [0, 1], []⟩
     else ((⟨[[0], [0, 1], [0, 1], [0, 1]], [2, 1, 2, 1]⟩ :
        WFCState).superpositions.getD 0 []).length = 1) :=
  ⟨⟨by decide, by decide, rfl⟩,
    C10_empty_queue_default_cell_zero paramsStripes 2 2 ⟨List.replicate 4 [0, 1], []⟩ 0 2
      (by decide) (by decide) (by decide) (by decide) rfl rfl⟩

/-! ### Inverse and distinctness of toroidal neighbors -/

theorem wrap_shift_ne {c m : Nat} (hm : 2 ≤ m) (hc : c < m) {dlt : Int}
    (hdlt : dlt = 1 ∨ dlt = -1) : wrap_value ((c : Int) + dlt) m ≠ c := by
  intro heq
  have hm0 : 0 < m := by omega
  have hbug : ¬((c : Int) + dlt < 0 ∧ (m : Int) ∣ ((c : Int) + dlt)) := by
    rintro ⟨h1, h2⟩
    have he1 : (c : Int) + dlt = -1 := by rcases hdlt with h | h <;> omega
    rw [he1] at h2
    have := Int.le_of_dvd one_pos ((Int.dvd_neg).mp h2)
    omega
  have h1 : ((wrap_value ((c : Int) + dlt) m : Nat) : Int) = ((c : Int) + dlt) % m :=
    wrap_value_eq_emod hm0 hbug
  rw [heq] at h1
  have h2 : ((c : Int) + dlt) % m = (c : Int) % m := by
    rw [← h1, Int.emod_eq_of_lt (by omega) (by omega)]
  have h3 : (m : Int) ∣ ((c : Int) - ((c : Int) + dlt)) :=
    Int.modEq_iff_dvd.mp h2
  have h4 : (m : Int) ∣ dlt := by
    have hneg : (c : Int) - ((c : Int) + dlt) = -dlt := by ring
    rw [hneg] at h3
    exact (Int.dvd_neg).mp h3
  have h5 : (m : Int) ∣ 1 := by
    rcases hdlt with h | h
    · rwa [h] at h4
    · rw [h] at h4
      exact (Int.dvd_neg).mp h4
  have := Int.le_of_dvd one_pos h5
  omega

theorem adj_coord_ne {w h : Nat} (hw : 2 ≤ w) (hh : 2 ≤ h) {a b : Nat}
    (ha : a < w) (hb : b < h) {d : Nat} (hd : d < 4) :
    adj_coord (a : Int) (b : Int) w h d ≠ (a, b) := by
  intro heq
  have h1 := congrArg Prod.fst heq
  have h2 := congrArg Prod.snd heq
  simp only [adj_coord] at h1 h2
  interval_cases d
  · exact wrap_shift_ne hh hb (Or.inl rfl) (by simpa [OFFSETS] using h2)
  · exact wrap_shift_ne hw ha (Or.inl rfl) (by simpa [OFFSETS] using h1)
  · exact wrap_shift_ne hh hb (Or.inr rfl) (by simpa [OFFSETS] using h2)
  · exact wrap_shift_ne hw ha (Or.inr rfl) (by simpa [OFFSETS] using h1)

theorem src_ne_adj {w h : Nat} (hw : 2 ≤ w) (hh : 2 ≤ h) {a b : Nat}
    (ha : a < w) (hb : b < h) {d : Nat} (hd : d < 4) :
    cell_index w (a, b) ≠ cell_index w (adj_coord (a : Int) (b : Int) w h d) := by
  intro heq
  have hcoords := cell_index_inj (show ((a, b) : Nat × Nat).1 < w from ha)
    (adj_coord_lt hw hh ha hb d).1 heq
  exact adj_coord_ne hw hh ha hb hd hcoords.symm

theorem wrap_inverse {w : Nat} (hw : 2 ≤ w) {x : Nat} (hx : x < w) {dlt : Int}
    (hd1 : -1 ≤ dlt) (hd2 : dlt ≤ 1) :
    wrap_value (((wrap_value ((x : Int) + dlt) w : Nat) : Int) + -dlt) w = x := by
  have hw0 : 0 < w := by omega
  have hbug1 : ¬((x : Int) + dlt < 0 ∧ (w : Int) ∣ ((x : Int) + dlt)) := by
    rintro ⟨h1, h2⟩
    have he1 : (x : Int) + dlt = -1 := by omega
    rw [he1] at h2
    have := Int.le_of_dvd one_pos ((Int.dvd_neg).mp h2)
    omega
  have h1 : ((wrap_value ((x : Int) + dlt) w : Nat) : Int) = ((x : Int) + dlt) % w :=
    wrap_value_eq_emod hw0 hbug1
  have hge : 0 ≤ ((x : Int) + dlt) % w :=
    Int.emod_nonneg _ (by exact_mod_cast Nat.pos_iff_ne_zero.mp hw0)
  have hbug2 : ¬(((wrap_value ((x : Int) + dlt) w : Nat) : Int) + -dlt < 0 ∧
      (w : Int) ∣ (((wrap_value ((x : Int) + dlt) w : Nat) : Int) + -dlt)) := by
    rintro ⟨hlt, hdvd⟩
    have he1 : ((wrap_value ((x : Int) + dlt) w : Nat) : Int) + -dlt = -1 := by omega
    rw [he1] at hdvd
    have := Int.le_of_dvd one_pos ((Int.dvd_neg).mp hdvd)
    omega
  have h2 : ((wrap_value (((wrap_value ((x : Int) + dlt) w : Nat) : Int) + -dlt) w : Nat) :
      Int) = (((wrap_value ((x : Int) + dlt) w : Nat) : Int) + -dlt) % w :=
    wrap_value_eq_emod hw0 hbug2
  have h3 : (((x : Int) + dlt) % w + -dlt) % w = (x : Int) % w := by
    have hsplit : ((x : Int) + dlt) % w + -dlt =
        (x : Int) + (w : Int) * (-(((x : Int) + dlt) / w)) := by
      rw [Int.emod_def]; ring
    rw [hsplit, Int.add_mul_emod_self_left]
  have h4 : (x : Int) % w = (x : Int) := Int.emod_eq_of_lt (by omega) (by omega)
  have h6 : (((wrap_value ((x : Int) + dlt) w : Nat) : Int) + -dlt) % w = (x : Int) := by
    rw [h1, h3, h4]
  rw [h6] at h2
  omega

theorem offsets_opp {d : Nat} (hd : d < 4) :
    (OFFSETS.getD ((d + 2) % 4) (0, 0)).1 = -(OFFSETS.getD d (0, 0)).1 ∧
    (OFFSETS.getD ((d + 2) % 4) (0, 0)).2 = -(OFFSETS.getD d (0, 0)).2 := by
  interval_cases d <;> exact ⟨rfl, rfl⟩

theorem adj_adj_inverse {w h : Nat} (hw : 2 ≤ w) (hh : 2 ≤ h) {a b : Nat}
    (ha : a < w) (hb : b < h) {d : Nat} (hd : d < 4) :
    adj_coord (((adj_coord (a : Int) (b : Int) w h d).1 : Nat) : Int)
      (((adj_coord (a : Int) (b : Int) w h d).2 : Nat) : Int) w h ((d + 2) % 4) = (a, b) := by
  obtain ⟨ho1, ho2⟩ := offsets_opp hd
  obtain ⟨hb1, hb2, hb3, hb4⟩ := offsets_bounds d
  refine Prod.ext ?_ ?_
  · show wrap_value (((adj_coord (a : Int) (b : Int) w h d).1 : Int) +
      (OFFSETS.getD ((d + 2) % 4) (0, 0)).1) w = a
    rw [ho1]
    exact wrap_inverse hw ha hb1 hb2
  · show wrap_value (((adj_coord (a : Int) (b : Int) w h d).2 : Int) +
      (OFFSETS.getD ((d + 2) % 4) (0, 0)).2) h = b
    rw [ho2]
    exact wrap_inverse hh hb hb3 hb4

/-! ### The arc-consistency invariant through one pop of `propagate` -/

theorem okay_lt_of_true {rules : RuleTable}
    (hwf : rules.rules.length = rules.tile_count * rules.tile_count * 4)
    {d t0 t : Nat} (hok : rules.okay d t0 t = true) : t0 < rules.tile_count := by
  by_contra hge
  push_neg at hge
  unfold RuleTable.okay at hok
  have hbig : rules.rules.length ≤
      t0 * rules.tile_count * OFFSETS.length + d * rules.tile_count + t := by
    rw [hwf, OFFSETS_length]
    have h1 : rules.tile_count * rules.tile_count ≤ t0 * rules.tile_count :=
      Nat.mul_le_mul_right _ hge
    calc rules.tile_count * rules.tile_count * 4 ≤ t0 * rules.tile_count * 4 :=
        Nat.mul_le_mul_right 4 h1
      _ ≤ _ := by omega
  rw [List.getD_eq_getElem?_getD, List.getElem?_eq_none (by simpa using hbig)] at hok
  cases hok

theorem getD_map_range_nat {count : Nat} (f : Nat → Nat) {t : Nat} (h : t < count) :
    ((List.range count).map f).getD t 0 = f t := by
  rw [List.getD_eq_getElem _ _ (by simpa using h)]
  simp

theorem arc_at_of_subset {sp sp2 : List (List Nat)} {rules : RuleTable} {w h : Nat}
    {p : Nat × Nat} {d : Nat}
    (hC : sp2.getD (cell_index w p) [] ⊆ sp.getD (cell_index w p) [])
    (hN : sp2.getD (cell_index w (adj_coord (p.1 : Int) (p.2 : Int) w h d)) [] =
      sp.getD (cell_index w (adj_coord (p.1 : Int) (p.2 : Int) w h d)) [])
    (harc : arc_at sp rules w h p d) : arc_at sp2 rules w h p d := by
  intro t ht
  obtain ⟨t', ht', hok⟩ := harc t (hC ht)
  exact ⟨t', by rw [hN]; exact ht', hok⟩

theorem prop_inv_nil {sp : List (List Nat)} {rules : RuleTable} {w h : Nat}
    (hinv : prop_inv sp rules w h []) : arc_consistent sp rules w h :=
  fun x hx y hy d hd => (hinv x hx y hy d hd).resolve_right
    (fun hmem => absurd hmem (List.not_mem_nil _))

theorem cast_pair_toNat (a b : Nat) :
    ((((a : Int)).toNat, ((b : Int)).toNat) : Nat × Nat) = (a, b) := by
  simp [Int.toNat_natCast]

/-- One processed pop preserves the invariant "every broken arc's target is on
the stack": the update re-establishes the four arcs pointing back at the
popped cell (via weak rule symmetry), a neighbor whose set shrank is pushed
by the check loop, and every other arc is untouched. -/
theorem pop_preserves_inv {sp : List (List Nat)} {rules : RuleTable} {w h : Nat}
    {a b : Nat} (hw : 2 ≤ w) (hh : 2 ≤ h) (ha : a < w) (hb : b < h)
    (hsym : symmetric_rules rules)
    (hwf : rules.rules.length = rules.tile_count * rules.tile_count * 4)
    {rest : List (Int × Int)}
    (hinv : prop_inv sp rules w h (((a : Int), (b : Int)) :: rest))
    {prev queue q2 : List Nat} {stack2 : List (Int × Int)}
    (hprev : ∀ d < 4, prev.getD d 0 =
      (sp.getD (cell_index w (adj_coord (a : Int) (b : Int) w h d)) []).length)
    (hok : propagate_checks (update_adjacent_tiles sp (a : Int) (b : Int) w h rules) w h
      (a : Int) (b : Int) prev queue rest [0, 1, 2, 3] = .ok (q2, stack2)) :
    prop_inv (update_adjacent_tiles sp (a : Int) (b : Int) w h rules) rules w h stack2 := by
  intro x hx y hy d hd
  have hsrc : ∀ d'' ∈ List.range OFFSETS.length,
      cell_index w ((((a : Int)).toNat, ((b : Int)).toNat) : Nat × Nat) ≠
        cell_index w (adj_coord (a : Int) (b : Int) w h d'') := by
    intro d'' hd''
    rw [cast_pair_toNat]
    have hd''4 : d'' < 4 := by
      have := List.mem_range.mp hd''
      rwa [OFFSETS_length] at this
    exact src_ne_adj hw hh ha hb hd''4
  by_cases hNP : adj_coord (x : Int) (y : Int) w h d = (a, b)
  · -- the arc's target is the popped cell: the update just re-established it
    left
    have hCP : adj_coord (a : Int) (b : Int) w h ((d + 2) % 4) = (x, y) := by
      have hi := adj_adj_inverse hw hh hx hy hd
      rw [hNP] at hi
      exact hi
    intro t ht
    have ht' : t ∈ ((List.range OFFSETS.length).foldl
        (fun sp2 direction => upd_dir sp2 (a : Int) (b : Int) w h rules direction) sp).getD
        (cell_index w (adj_coord (a : Int) (b : Int) w h ((d + 2) % 4))) [] := by
      rw [hCP]
      exact ht
    have hmem4 : (d + 2) % 4 ∈ List.range OFFSETS.length := by
      rw [OFFSETS_length]
      exact List.mem_range.mpr (Nat.mod_lt _ (by norm_num))
    obtain ⟨htc, t0, ht0, hok0⟩ :=
      upd_fold_allowed (List.range OFFSETS.length) sp (a : Int) (b : Int) w h rules
        hsrc hmem4 ht'
    rw [cast_pair_toNat] at ht0
    have ht0c : t0 < rules.tile_count := okay_lt_of_true hwf hok0
    have hsymres := hsym ((d + 2) % 4) (Nat.mod_lt _ (by norm_num)) t0 ht0c t htc hok0
    have hdd : ((d + 2) % 4 + 2) % 4 = d := by omega
    rw [hdd] at hsymres
    refine ⟨t0, ?_, hsymres⟩
    show t0 ∈ (update_adjacent_tiles sp (a : Int) (b : Int) w h rules).getD
      (cell_index w (adj_coord (x : Int) (y : Int) w h d)) []
    rw [hNP, update_adjacent_tiles,
      upd_fold_getD_ne (List.range OFFSETS.length) sp (a : Int) (b : Int) w h rules
        (fun d'' hd'' => by
          have hd''4 : d'' < 4 := by
            have := List.mem_range.mp hd''
            rwa [OFFSETS_length] at this
          exact src_ne_adj hw hh ha hb hd''4)]
    exact ht0
  · by_cases hchg : (update_adjacent_tiles sp (a : Int) (b : Int) w h rules).getD
        (cell_index w (adj_coord (x : Int) (y : Int) w h d)) [] =
        sp.getD (cell_index w (adj_coord (x : Int) (y : Int) w h d)) []
    · -- target untouched: the arc held before, or its target waits in `rest`
      rcases hinv x hx y hy d hd with harc | hmem
      · left
        exact arc_at_of_subset
          ((update_adjacent_tiles_sublist sp (a : Int) (b : Int) w h rules
            (cell_index w (x, y))).subset) hchg harc
      · rcases List.mem_cons.mp hmem with hP | hrest
        · exfalso
          apply hNP
          have h1 := congrArg Prod.fst hP
          have h2 := congrArg Prod.snd hP
          simp only at h1 h2
          exact Prod.ext (by exact_mod_cast h1) (by exact_mod_cast h2)
        · right
          obtain ⟨hA, -, -⟩ := propagate_checks_ok_stack hok
          exact hA _ hrest
    · -- target shrank: it is one of the four neighbors and the check loop
      -- pushed its coordinate
      right
      have hupd : ∃ d' ∈ List.range OFFSETS.length,
          cell_index w (adj_coord (x : Int) (y : Int) w h d) =
            cell_index w (adj_coord (a : Int) (b : Int) w h d') := by
        by_contra hno
        push_neg at hno
        exact hchg (upd_fold_getD_ne (List.range OFFSETS.length) sp (a : Int) (b : Int)
          w h rules hno)
      obtain ⟨d', hd'm, hidx_eq⟩ := hupd
      have hd'4 : d' < 4 := by
        have := List.mem_range.mp hd'm
        rwa [OFFSETS_length] at this
      obtain ⟨-, -, hC⟩ := propagate_checks_ok_stack hok
      have hd'list : d' ∈ [0, 1, 2, 3] := by interval_cases d' <;> simp
      have hcond : ((update_adjacent_tiles sp (a : Int) (b : Int) w h rules).getD
          (cell_index w (adj_coord (a : Int) (b : Int) w h d')) []).length ≠
          prev.getD d' 0 := by
        rw [hprev d' hd'4, ← hidx_eq]
        intro hleq
        exact hchg ((update_adjacent_tiles_sublist sp (a : Int) (b : Int) w h rules
          (cell_index w (adj_coord (x : Int) (y : Int) w h d))).eq_of_length hleq)
      have hpush := hC d' hd'list hcond
      have hcoords : adj_coord (x : Int) (y : Int) w h d =
          adj_coord (a : Int) (b : Int) w h d' :=
        cell_index_inj (adj_coord_lt hw hh hx hy d).1 (adj_coord_lt hw hh ha hb d').1
          hidx_eq
      rw [hcoords]
      exact hpush

/-- The invariant carries through a whole `propagate` run: a run that ends
without contradiction leaves the field locally arc-consistent. -/
theorem propagate_preserves_arc {fuel : Nat} {sp : List (List Nat)}
    {params : WFCParameters} {w h : Nat} {queue : List Nat} {stack : List (Int × Int)}
    {sp' : List (List Nat)} {q' : List Nat}
    (hw : 2 ≤ w) (hh : 2 ≤ h)
    (hsym : symmetric_rules params.wfc_rules)
    (hwf : params.wfc_rules.rules.length =
      params.wfc_rules.tile_count * params.wfc_rules.tile_count * 4)
    (hstack : stack_wf w h stack)
    (hinv : prop_inv sp params.wfc_rules w h stack)
    (hp : propagate fuel sp params w h queue stack = some (false, sp', q')) :
    arc_consistent sp' params.wfc_rules w h := by
  induction fuel generalizing sp queue stack with
  | zero => cases hp
  | succ fuel ih =>
    rcases stack with _ | ⟨⟨posx, posy⟩, rest⟩
    · rw [propagate_succ_nil] at hp
      simp only [Option.some.injEq, Prod.mk.injEq] at hp
      rw [← hp.2.1]
      exact prop_inv_nil hinv
    · obtain ⟨a, b, ha, hb, hab⟩ := hstack (posx, posy) (List.mem_cons_self _ _)
      injection hab with hxa hyb
      subst hxa hyb
      rw [propagate_succ_cons] at hp
      split at hp
      · simp only [Option.some.injEq, Prod.mk.injEq] at hp
        exact absurd hp.1.symm (by simp)
      · rename_i q stack2 heq
        refine ih (stack2_wf hw hh ha hb rfl rfl (stack_wf_cons hstack) heq) ?_ hp
        refine pop_preserves_inv hw hh ha hb hsym hwf hinv ?_ heq
        intro d hd
        rw [OFFSETS_length]
        exact getD_map_range_nat _ hd

/-- C1: a `step` that returns Ok on a field with no empty cell preserves
local arc-consistency (for a weakly symmetric, well-formed rule table as
`from_image_data` builds): after the call, every tile in every cell's
candidate set has a compatible tile in each toroidal neighbor. -/
theorem C1_step_preserves_arc_consistency (params : WFCParameters) (w h : Nat)
    (st : WFCState) (r fuel : Nat) (hw : 2 ≤ w) (hh : 2 ≤ h)
    (hsym : symmetric_rules params.wfc_rules)
    (hwf : params.wfc_rules.rules.length =
      params.wfc_rules.tile_count * params.wfc_rules.tile_count * 4)
    (hq : queue_wf w h st.tile_queue)
    (hne : all_nonempty st.superpositions (w * h))
    (harc : arc_consistent st.superpositions params.wfc_rules w h)
    {st' : WFCState}
    (hstep : params.step w h st r fuel = some (Except.ok (), st')) :
    arc_consistent st'.superpositions params.wfc_rules w h := by
  have hidx : st.tile_queue.head?.getD 0 < w * h := by
    rcases hqc : st.tile_queue with _ | ⟨q0, qrest⟩
    · simp only [List.head?_nil, Option.getD_none]
      exact Nat.mul_pos (by omega) (by omega)
    · simp only [List.head?_cons, Option.getD_some]
      exact hq q0 (by rw [hqc]; exact List.mem_cons_self _ _)
  by_cases hcase : (st.superpositions.getD (st.tile_queue.head?.getD 0) []).length ≤ 1
  · rw [step_unfold_stale params w h st r fuel hcase] at hstep
    simp only [Option.some.injEq, Prod.mk.injEq] at hstep
    rw [← hstep.2]
    exact harc
  · rw [step_unfold_main params w h st r fuel hcase] at hstep
    have hvecne : st.superpositions.getD (st.tile_queue.head?.getD 0) [] ≠ [] := by
      intro hnil
      rw [hnil] at hcase
      exact hcase (by simp)
    have hchosen := @random_element_weighted_mem
      (st.superpositions.getD (st.tile_queue.head?.getD 0) []) r
      ((st.superpositions.getD (st.tile_queue.head?.getD 0) []).map
        (fun tile => params.wfc_frequency.getD tile 0))
      hvecne (List.length_map _ _)
    have hstackwf : stack_wf w h
        [(((st.tile_queue.head?.getD 0 % w : Nat) : Int),
          ((st.tile_queue.head?.getD 0 / w : Nat) : Int))] := by
      intro z hz
      rw [List.mem_singleton.mp hz]
      refine ⟨st.tile_queue.head?.getD 0 % w, st.tile_queue.head?.getD 0 / w, ?_, ?_, rfl⟩
      · exact Nat.mod_lt _ (by omega)
      · exact Nat.div_lt_of_lt_mul hidx
    split at hstep
    · cases hstep
    · rename_i failed sp2 q2 heq
      by_cases hfail : failed = true
      · rw [if_pos hfail] at hstep
        simp only [Option.some.injEq, Prod.mk.injEq] at hstep
        cases hstep.1
      · rw [if_neg hfail] at hstep
        simp only [Option.some.injEq, Prod.mk.injEq] at hstep
        obtain ⟨-, hst⟩ := hstep
        have hf : failed = false := by
          revert hfail
          cases failed <;> simp
        rw [hf] at heq
        rw [← hst]
        refine propagate_preserves_arc hw hh hsym hwf hstackwf ?_ heq
        intro x hx y hy d hd
        by_cases hNidx : cell_index w (adj_coord (x : Int) (y : Int) w h d) =
            st.tile_queue.head?.getD 0
        · right
          have hNcoords : adj_coord (x : Int) (y : Int) w h d =
              (st.tile_queue.head?.getD 0 % w, st.tile_queue.head?.getD 0 / w) := by
            apply cell_index_inj (adj_coord_lt hw hh hx hy d).1
              (show ((st.tile_queue.head?.getD 0 % w,
                st.tile_queue.head?.getD 0 / w) : Nat × Nat).1 < w from
                Nat.mod_lt _ (by omega))
            rw [hNidx]
            show st.tile_queue.head?.getD 0 =
              st.tile_queue.head?.getD 0 % w + st.tile_queue.head?.getD 0 / w * w
            exact (Nat.mod_add_div' _ _).symm
          rw [hNcoords]
          exact List.mem_singleton.mpr rfl
        · left
          refine @arc_at_of_subset _ _ _ _ _ (x, y) _ (set_singleton_subset hchosen _)
            (getD_set_ne _ _ _ (fun heq2 => hNidx heq2.symm)) (harc x hx y hy d hd)

/-- Witness for C1: the concrete collapse-and-propagate step on the stripes
field keeps the field arc-consistent. -/
theorem C1_witness :
    (symmetric_rules paramsStripes.wfc_rules ∧
      arc_consistent (WFCState.new 2 2 [0, 1] [2, 2] 0).superpositions
        paramsStripes.wfc_rules 2 2) ∧
    arc_consistent (⟨[[0], [0, 1], [0, 1], [0, 1]], [2, 1, 2, 1]⟩ :
      WFCState).superpositions paramsStripes.wfc_rules 2 2 :=
  ⟨⟨by decide, by decide⟩,
    C1_step_preserves_arc_consistency paramsStripes 2 2 (WFCState.new 2 2 [0, 1] [2, 2] 0)
      0 2 (by decide) (by decide) (by decide) (by decide) (by decide) (by decide)
      (by decide) rfl⟩
